import Mathlib

/-!
Verification of the position-state engine of `src/position.rs` (shogi position
core: bitboard-backed board, incremental check/pin computation, reversible
do_move/undo_move, attacker enumeration).

Only `position.rs` is given as source.  The external collaborators it uses
(`Bitboard`, `Hand`, `Piece`, `PieceType`, `Square`, `Color`, `Move`,
`ATTACK_TABLE`, `BETWEEN_TABLE`) are modelled from the specification, as
marked on each definition.  Everything in `Position` and `State` is a direct
translation of the Rust source.
-/

set_option linter.unusedVariables false

/-- Modelled from the spec: the external `Color` enumeration (two players;
`crate::Color`), with `Black` the side that moves first in the standard
opening. -/
inductive Color
  | Black
  | White
deriving DecidableEq, Repr

/-- Modelled from the spec: the `!` operator on `Color` (the opponent). -/
def Color.not : Color → Color
  | .Black => .White
  | .White => .Black

theorem Color.not_not (c : Color) : c.not.not = c := by cases c <;> rfl

instance : Fintype Color :=
  ⟨⟨{Color.Black, Color.White}, by decide⟩, by intro c; cases c <;> decide⟩

/-- Modelled from the spec: the external `PieceType` enumeration
(`crate::piece::PieceType`): the eight base types pawn `FU`, lance `KY`,
knight `KE`, silver `GI`, gold `KI`, bishop `KA`, rook `HI`, king `OU`, and
the six promoted types `TO` (=FU), `NY` (=KY), `NK` (=KE), `NG` (=GI),
`UM` (=KA), `RY` (=HI).  The synthetic `OCCUPIED` aggregate of the Rust
code is modelled as the separate `occ_bb` field of `Position` rather than
as an extra enumerator. -/
inductive PieceType
  | FU | KY | KE | GI | KI | KA | HI | OU
  | TO | NY | NK | NG | UM | RY
deriving DecidableEq, Repr

instance : Fintype PieceType :=
  ⟨⟨{.FU, .KY, .KE, .GI, .KI, .KA, .HI, .OU, .TO, .NY, .NK, .NG, .UM, .RY}, by decide⟩,
    by intro pt; cases pt <;> decide⟩

/-- Modelled from the spec: demotion collapses a promoted type to its base
type ("captured pieces revert to base type upon capture"); base types are
fixed by demotion. -/
def PieceType.demote : PieceType → PieceType
  | .TO => .FU
  | .NY => .KY
  | .NK => .KE
  | .NG => .GI
  | .UM => .KA
  | .RY => .HI
  | pt => pt

/-- Modelled from the spec: promotion upgrades a promotable base type to its
promoted variant; gold, king and already-promoted types have no promoted
variant and are left unchanged. -/
def PieceType.promote : PieceType → PieceType
  | .FU => .TO
  | .KY => .NY
  | .KE => .NK
  | .GI => .NG
  | .KA => .UM
  | .HI => .RY
  | pt => pt

/-- The base types that can sit in a hand (promotable or not, kings never):
`PieceType::ALL_HAND` of the Rust code, in its fixed ordering. -/
def PieceType.allHand : List PieceType :=
  [.FU, .KY, .KE, .GI, .KI, .KA, .HI]

/-- Modelled from the spec: the external `Piece` value — empty, or a colored
(possibly promoted) piece type (`crate::Piece`). -/
inductive Piece
  | EMP
  | piece (c : Color) (pt : PieceType)
deriving DecidableEq, Repr

/-- `Piece::color`. -/
def Piece.color : Piece → Option Color
  | .EMP => none
  | .piece c _ => some c

/-- `Piece::piece_type`. -/
def Piece.pieceType : Piece → Option PieceType
  | .EMP => none
  | .piece _ pt => some pt

/-- `Piece::promoted`: the same piece with its type promoted. -/
def Piece.promoted : Piece → Piece
  | .EMP => .EMP
  | .piece c pt => .piece c pt.promote

/-- `Piece::demoted`: the same piece with its type demoted. -/
def Piece.demoted : Piece → Piece
  | .EMP => .EMP
  | .piece c pt => .piece c pt.demote

/-- Modelled from the spec: the external `Square` type — an index into the
81-cell grid, presented as a (file, rank) pair; the dense index used by the
Rust board array is `file * 9 + rank`. -/
structure Square where
  file : Fin 9
  rank : Fin 9
deriving DecidableEq, Repr

instance : Fintype Square :=
  Fintype.ofEquiv (Fin 9 × Fin 9)
    { toFun := fun p => ⟨p.1, p.2⟩
      invFun := fun s => (s.file, s.rank)
      left_inv := fun _ => rfl
      right_inv := fun _ => rfl }

theorem Square.ext_mk {a b : Square} (h1 : a.file = b.file) (h2 : a.rank = b.rank) :
    a = b := by
  cases a; cases b; simp_all

/-- All 81 squares in dense-index order (`Square::ALL`; the iteration order
of `Bitboard`'s set bits). -/
def squareList : List Square :=
  (List.finRange 9).flatMap fun f => (List.finRange 9).map fun r => ⟨f, r⟩

theorem mem_squareList (s : Square) : s ∈ squareList := by
  simp [squareList, List.mem_flatMap]

theorem squareList_nodup : squareList.Nodup := by decide

/-- Modelled from the spec: the external `Bitboard` — a mask over board
squares, here a Boolean-valued function on squares. -/
abbrev Bitboard := Square → Bool

/-- `Bitboard::ZERO`. -/
def bbZero : Bitboard := fun _ => false

/-- Bitboard union (`|`). -/
def bbOr (a b : Bitboard) : Bitboard := fun s => a s || b s

/-- Bitboard intersection (`&`). -/
def bbAnd (a b : Bitboard) : Bitboard := fun s => a s && b s

/-- Bitboard xor with a single square (`^= sq`). -/
def bbXorSq (b : Bitboard) (sq : Square) : Bitboard :=
  fun s => xor (b s) (decide (s = sq))

/-- Bitboard union with a single square (`|= sq`). -/
def bbOrSq (b : Bitboard) (sq : Square) : Bitboard :=
  fun s => b s || decide (s = sq)

/-- `Bitboard::from_square`. -/
def bbFromSq (sq : Square) : Bitboard := fun s => decide (s = sq)

/-- `Bitboard::is_empty`. -/
def bbIsEmpty (b : Bitboard) : Bool := squareList.all fun s => !b s

/-- `Bitboard::next` (first set square in dense-index order). -/
def bbNext (b : Bitboard) : Option Square := squareList.find? fun s => b s

/-- `Bitboard::count_ones`. -/
def bbCountOnes (b : Bitboard) : Nat := squareList.countP fun s => b s

/-- Modelled from the spec: the external `Hand` — per-color counts of
captured pieces in reserve, keyed by the seven capturable base types; the
spec stipulates that hands hold only unpromoted types and that captured
pieces revert to base type when they enter a hand, so increment/decrement
and the count query key by the demoted type (the source's own test captures
a promoted `BUM` horse and expects hand bookkeeping to work). -/
abbrev Hand := PieceType → Nat

/-- The empty hand (`Hand::new`). -/
def Hand.new : Hand := fun _ => 0

/-- `Hand::increment` (keyed by demoted type, see `Hand`). -/
def Hand.increment (h : Hand) (pt : PieceType) : Hand :=
  Function.update h pt.demote (h pt.demote + 1)

/-- `Hand::decrement` (keyed by demoted type; truncated at zero). -/
def Hand.decrement (h : Hand) (pt : PieceType) : Hand :=
  Function.update h pt.demote (h pt.demote - 1)

/-- `Hand::num` — the count held for a piece type (keyed by demoted type). -/
def Hand.num (h : Hand) (pt : PieceType) : Nat := h pt.demote

/-- `Hand::is_empty`. -/
def Hand.isEmpty (h : Hand) : Bool :=
  PieceType.allHand.all fun pt => h pt == 0

/-- Modelled from the spec: the external `Move` value — "origin (optional,
absent for drops), destination, promotion flag, the moving piece's identity,
and the captured piece's identity (if any)", a flat immutable value. -/
structure Move where
  fromOpt : Option Square
  toSq : Square
  isPromotion : Bool
  piece : Piece
  captured : Option Piece
deriving DecidableEq, Repr

/-- `Move::new_normal`. -/
def Move.newNormal (f t : Square) (promo : Bool) (p : Piece) (cap : Option Piece) : Move :=
  ⟨some f, t, promo, p, cap⟩

/-- `Move::new_drop`. -/
def Move.newDrop (t : Square) (p : Piece) : Move :=
  ⟨none, t, false, p, none⟩

/-! ### Attack and ray tables

Modelled from the spec: the external static `ATTACK_TABLE` and
`BETWEEN_TABLE` (`crate::tables`).  `attack pt sq c occ` is the set of
squares a piece of type `pt` and color `c` standing on `sq` attacks under
occupancy `occ` ("given a piece type, origin square, side, and current
occupancy, return the bitboard of squares that piece type attacks from that
origin; sliding pieces consult occupancy, non-sliding pieces do not"), with
the standard shogi movement patterns.  Black moves toward decreasing rank
index, White toward increasing rank index (matching the standard opening
layout of the source's `Default` impl). -/

/-- Forward rank direction of a color. -/
def dirSign : Color → Int
  | .Black => -1
  | .White => 1

/-- Scale the rank component of a step by a color's forward direction. -/
def scaleD (d : Int) (p : Int × Int) : Int × Int := (p.1, p.2 * d)

/-- The single-step offsets of a piece type, for White (rank component
multiplied by `dirSign c` for color `c`); empty for pure sliders. -/
def stepBase : PieceType → List (Int × Int)
  | .FU => [(0, 1)]
  | .KY => []
  | .KE => [(1, 2), (-1, 2)]
  | .GI => [(0, 1), (1, 1), (-1, 1), (1, -1), (-1, -1)]
  | .KI => [(0, 1), (1, 1), (-1, 1), (1, 0), (-1, 0), (0, -1)]
  | .KA => []
  | .HI => []
  | .OU => [(0, 1), (1, 1), (-1, 1), (1, 0), (-1, 0), (0, -1), (1, -1), (-1, -1)]
  | .TO => [(0, 1), (1, 1), (-1, 1), (1, 0), (-1, 0), (0, -1)]
  | .NY => [(0, 1), (1, 1), (-1, 1), (1, 0), (-1, 0), (0, -1)]
  | .NK => [(0, 1), (1, 1), (-1, 1), (1, 0), (-1, 0), (0, -1)]
  | .NG => [(0, 1), (1, 1), (-1, 1), (1, 0), (-1, 0), (0, -1)]
  | .UM => [(1, 0), (-1, 0), (0, 1), (0, -1)]
  | .RY => [(1, 1), (-1, 1), (1, -1), (-1, -1)]

/-- The sliding-ray directions of a piece type, for White (rank component
multiplied by `dirSign c`); empty for non-sliders. -/
def slideBase : PieceType → List (Int × Int)
  | .KY => [(0, 1)]
  | .KA => [(1, 1), (-1, 1), (1, -1), (-1, -1)]
  | .UM => [(1, 1), (-1, 1), (1, -1), (-1, -1)]
  | .HI => [(0, 1), (0, -1), (1, 0), (-1, 0)]
  | .RY => [(0, 1), (0, -1), (1, 0), (-1, 0)]
  | _ => []

/-- Move one step from a square by an (file, rank) offset, `none` off-board. -/
def shift (s : Square) (d : Int × Int) : Option Square :=
  let f : Int := (s.file : Int) + d.1
  let r : Int := (s.rank : Int) + d.2
  if h : 0 ≤ f ∧ f < 9 ∧ 0 ≤ r ∧ r < 9 then
    some ⟨⟨f.toNat, by omega⟩, ⟨r.toNat, by omega⟩⟩
  else
    none

/-- Is `u` reached sliding from `s` in direction `d` before any blocker?
The first blocker's square is attacked; squares beyond it are not.  Fuel
bounds the walk (8 suffices on a 9×9 board). -/
def rayMem (occ : Bitboard) (d : Int × Int) : Nat → Square → Square → Bool
  | 0, _, _ => false
  | fuel + 1, s, u =>
    match shift s d with
    | none => false
    | some t => decide (t = u) || (!occ t && rayMem occ d fuel t u)

/-- Does a single-step piece of type `pt` and color `c` on `s` attack `u`? -/
def stepHit (pt : PieceType) (c : Color) (s u : Square) : Bool :=
  ((stepBase pt).map (scaleD (dirSign c))).any fun d => decide (shift s d = some u)

/-- Does a sliding piece of type `pt` and color `c` on `s` attack `u` under
occupancy `occ`? -/
def slideHit (pt : PieceType) (c : Color) (occ : Bitboard) (s u : Square) : Bool :=
  ((slideBase pt).map (scaleD (dirSign c))).any fun d => rayMem occ d 8 s u

/-- `ATTACK_TABLE.attack(pt, sq, c, occ)`. -/
def attackTable (pt : PieceType) (sq : Square) (c : Color) (occ : Bitboard) : Bitboard :=
  fun u => stepHit pt c sq u || slideHit pt c occ sq u

/-- `ATTACK_TABLE.pseudo_attack(pt, sq, c)`: the attack pattern ignoring all
blockers. -/
def pseudoAttack (pt : PieceType) (sq : Square) (c : Color) : Bitboard :=
  attackTable pt sq c bbZero

/-- The eight queen directions (for the ray-betweenness table). -/
def dirs8 : List (Int × Int) :=
  [(0, 1), (0, -1), (1, 0), (-1, 0), (1, 1), (1, -1), (-1, 1), (-1, -1)]

/-- Walk from `s` in direction `d` accumulating passed squares; `some acc`
when `t` is reached, `none` if the walk leaves the board or runs out of
fuel. -/
def betweenWalk (d : Int × Int) (t : Square) : Nat → Square → Bitboard → Option Bitboard
  | 0, _, _ => none
  | fuel + 1, s, acc =>
    match shift s d with
    | none => none
    | some x => if x = t then some acc else betweenWalk d t fuel x (bbOrSq acc x)

/-- `BETWEEN_TABLE[s][t]`: the squares strictly between `s` and `t` when the
two share a queen ray, empty otherwise. -/
def betweenTable (s t : Square) : Bitboard :=
  dirs8.foldl
    (fun acc d =>
      match betweenWalk d t 8 s bbZero with
      | some b => bbOr acc b
      | none => acc)
    bbZero

/-! ### State (from `position.rs`) -/

/-- `State` of `position.rs`: the per-ply snapshot of checkers and pinned
bitboards. -/
structure State where
  checkers : Bitboard
  pinned : Color → Bitboard
deriving DecidableEq

/-- The body of `State::calculate_pinned`'s loop for one color `c`
(`position.rs` lines 22–37, translated exactly: the king looked up is the
king of `!c`, snipers are the color-`c` sliders whose pseudo-attack from
that king's square hits them, and single blockers in the corridor are
accumulated into the component for `c`). -/
def calcPinnedFor (c_bb : Color → Bitboard) (pt_bb : PieceType → Bitboard)
    (occ_bb : Bitboard) (c : Color) : Bitboard :=
  match bbNext (bbAnd (c_bb c.not) (pt_bb .OU)) with
  | none => bbZero
  | some sq =>
    let snipers :=
      bbAnd
        (bbOr
          (bbOr (bbAnd (pseudoAttack .KY sq c) (pt_bb .KY))
            (bbAnd (pseudoAttack .KA sq c) (bbOr (pt_bb .KA) (pt_bb .UM))))
          (bbAnd (pseudoAttack .HI sq c) (bbOr (pt_bb .HI) (pt_bb .RY))))
        (c_bb c)
    (squareList.filter fun s => snipers s).foldl
      (fun acc sniper =>
        let blockers := bbAnd (betweenTable sq sniper) occ_bb
        if bbCountOnes blockers = 1 then bbOr acc blockers else acc)
      bbZero

/-- `State::calculate_pinned` (the Rust `pt_bb` slice carries the synthetic
`OCCUPIED` entry, passed here as the separate `occ_bb`). -/
def State.calculatePinned (c_bb : Color → Bitboard) (pt_bb : PieceType → Bitboard)
    (occ_bb : Bitboard) : Color → Bitboard :=
  fun c => calcPinnedFor c_bb pt_bb occ_bb c

/-! ### Position (from `position.rs`) -/

/-- `Position` of `position.rs`.  `states` is the snapshot stack with the
most recent state at the head (the Rust `Vec` pushes and pops at its end);
`occ_bb` is the Rust `pt_bb[PieceType::OCCUPIED]` entry. -/
@[ext]
structure Position where
  board : Square → Piece
  hands : Color → Hand
  color : Color
  c_bb : Color → Bitboard
  pt_bb : PieceType → Bitboard
  occ_bb : Bitboard
  states : List State
deriving DecidableEq

/-- `Position::new`.  The occupancy bitboards are built from the layout (the
Rust code's single pass over all squares amounts to exactly these
per-square memberships), hands by repeated increment over the supplied
counts, and the initial state has `checkers` always `ZERO` — the Rust code
only has a dead `if let … { // TODO }` there — with `pinned` computed by
`State::calculate_pinned`. -/
def Position.new (board : Square → Piece) (handNums : Color → PieceType → Nat)
    (sideToMove : Color) : Position :=
  let c_bb : Color → Bitboard := fun c s => decide ((board s).color = some c)
  let pt_bb : PieceType → Bitboard := fun pt s => decide ((board s).pieceType = some pt)
  let occ_bb : Bitboard := fun s => (board s).pieceType.isSome
  let mkHand : (PieceType → Nat) → Hand := fun counts =>
    PieceType.allHand.foldl (fun h pt => (fun h' => h'.increment pt)^[counts pt] h) Hand.new
  let state : State := ⟨bbZero, State.calculatePinned c_bb pt_bb occ_bb⟩
  { board := board
    hands := fun c => mkHand (handNums c)
    color := sideToMove
    c_bb := c_bb
    pt_bb := pt_bb
    occ_bb := occ_bb
    states := [state] }

/-- `Position::piece_on`. -/
def Position.pieceOn (pos : Position) (sq : Square) : Piece := pos.board sq

/-- `Position::pieces_c`. -/
def Position.piecesC (pos : Position) (c : Color) : Bitboard := pos.c_bb c

/-- `Position::pieces_p`. -/
def Position.piecesP (pos : Position) (pt : PieceType) : Bitboard := pos.pt_bb pt

/-- `Position::pieces_cp`. -/
def Position.piecesCP (pos : Position) (c : Color) (pt : PieceType) : Bitboard :=
  bbAnd (pos.piecesC c) (pos.piecesP pt)

/-- `Position::pieces_ps`. -/
def Position.piecesPs (pos : Position) (pts : List PieceType) : Bitboard :=
  pts.foldl (fun acc pt => bbOr acc (pos.piecesP pt)) bbZero

/-- `Position::occupied`. -/
def Position.occupied (pos : Position) : Bitboard := pos.occ_bb

/-- `Position::state` (top of the snapshot stack). -/
def Position.state (pos : Position) : Option State := pos.states.head?

/-- `Position::checkers`; `none` models the `expect("empty states")`
defensive fault on an empty stack. -/
def Position.checkersQ (pos : Position) : Option Bitboard :=
  pos.state.map State.checkers

/-- `Position::pinned`; `none` models the defensive fault on an empty
stack. -/
def Position.pinnedQ (pos : Position) : Option (Color → Bitboard) :=
  pos.state.map State.pinned

/-- `Position::in_check` (`!checkers().is_empty()`); faults exactly when
`checkers()` does. -/
def Position.inCheckQ (pos : Position) : Option Bool :=
  pos.checkersQ.map fun cb => !bbIsEmpty cb

/-- `Position::king`. -/
def Position.king (pos : Position) (c : Color) : Option Square :=
  bbNext (pos.piecesCP c .OU)

/-- `Position::hand`. -/
def Position.hand (pos : Position) (c : Color) : Hand := pos.hands c

/-- `Position::side_to_move`. -/
def Position.sideToMove (pos : Position) : Color := pos.color

/-- `Position::attackers_to` (translated family by family). -/
def Position.attackersTo (pos : Position) (c : Color) (toSq : Square) : Bitboard :=
  let opp := c.not
  let occ := pos.occupied
  bbAnd
    (bbOr
      (bbOr
        (bbOr (bbAnd (attackTable .FU toSq opp occ) (pos.piecesP .FU))
          (bbAnd (attackTable .KY toSq opp occ) (pos.piecesP .KY)))
        (bbOr (bbAnd (attackTable .KE toSq opp occ) (pos.piecesP .KE))
          (bbAnd (attackTable .GI toSq opp occ) (pos.piecesPs [.GI, .RY, .OU]))))
      (bbOr
        (bbOr (bbAnd (attackTable .KA toSq opp occ) (pos.piecesPs [.KA, .UM]))
          (bbAnd (attackTable .HI toSq opp occ) (pos.piecesPs [.HI, .RY])))
        (bbAnd (attackTable .KI toSq opp occ)
          (pos.piecesPs [.KI, .TO, .NY, .NK, .NG, .UM, .OU]))))
    (pos.piecesC c)

/-- `Position::xor_bbs`. -/
def Position.xorBBs (pos : Position) (c : Color) (pt : PieceType) (sq : Square) : Position :=
  { pos with
    c_bb := Function.update pos.c_bb c (bbXorSq (pos.c_bb c) sq)
    occ_bb := bbXorSq pos.occ_bb sq
    pt_bb := Function.update pos.pt_bb pt (bbXorSq (pos.pt_bb pt) sq) }

/-- `Position::put_piece`; `none` models the panic on a color/type-less
piece. -/
def Position.putPiece (pos : Position) (sq : Square) (p : Piece) : Option Position :=
  match p with
  | .piece c pt =>
    some { pos.xorBBs c pt sq with board := Function.update pos.board sq p }
  | .EMP => none

/-- `Position::remove_piece`; `none` models the panic on a color/type-less
piece. -/
def Position.removePiece (pos : Position) (sq : Square) (p : Piece) : Option Position :=
  match p with
  | .piece c pt =>
    some { pos.xorBBs c pt sq with board := Function.update pos.board sq .EMP }
  | .EMP => none

/-- `Position::do_normal_move` (returns the new `State` beside the mutated
position, as the Rust method does; a `none` branch models a panic). -/
def Position.doNormalMove (pos : Position) (fromSq toSq : Square) (promotion : Bool) :
    Option (Position × State) :=
  let c := pos.sideToMove
  let pFrom := pos.pieceOn fromSq
  match pos.removePiece fromSq pFrom with
  | none => none
  | some pos1 =>
    let pos2 :=
      match (pos1.pieceOn toSq).pieceType with
      | some pt =>
        { pos1.xorBBs c.not pt toSq with
          hands := Function.update pos1.hands c ((pos1.hands c).increment pt) }
      | none => pos1
    let pTo := if promotion then pFrom.promoted else pFrom
    match pos2.putPiece toSq pTo with
    | none => none
    | some pos3 =>
      let checkers :=
        match pos3.king c.not with
        | some sq => pos3.attackersTo c sq
        | none => bbZero
      some (pos3, ⟨checkers, State.calculatePinned pos3.c_bb pos3.pt_bb pos3.occ_bb⟩)

/-- `Position::do_drop_move`; `none` models the `unwrap` panic on an empty
dropped piece. -/
def Position.doDropMove (pos : Position) (toSq : Square) (p : Piece) :
    Option (Position × State) :=
  let c := pos.sideToMove
  match p.pieceType with
  | none => none
  | some pt =>
    match pos.putPiece toSq p with
    | none => none
    | some pos1 =>
      let pos2 :=
        { pos1 with hands := Function.update pos1.hands c ((pos1.hands c).decrement pt) }
      let checkers :=
        match pos2.king c.not with
        | some sq =>
          if !bbIsEmpty (bbAnd (attackTable pt toSq c pos2.occupied) (bbFromSq sq)) then
            bbFromSq toSq
          else
            bbZero
        | none => bbZero
      some (pos2, ⟨checkers, State.calculatePinned pos2.c_bb pos2.pt_bb pos2.occ_bb⟩)

/-- `Position::do_move`: apply the move, push the new state, flip the side
to move. -/
def Position.doMove (pos : Position) (m : Move) : Option Position :=
  match
    (match m.fromOpt with
     | some f => pos.doNormalMove f m.toSq m.isPromotion
     | none => pos.doDropMove m.toSq m.piece) with
  | none => none
  | some (pos', state) =>
    some { pos' with states := state :: pos'.states, color := pos'.color.not }

/-- `Position::undo_move`: invert the board/hand mutation using the move
value, flip the side to move back, pop the state stack. -/
def Position.undoMove (pos : Position) (m : Move) : Option Position :=
  let c := pos.sideToMove
  let toSq := m.toSq
  let pTo := pos.pieceOn toSq
  match m.fromOpt with
  | some fromSq =>
    match pos.removePiece toSq pTo with
    | none => none
    | some pos1 =>
      let pos2Opt : Option Position :=
        match m.captured with
        | some pCap =>
          match pos1.putPiece toSq pCap with
          | none => none
          | some posa =>
            match pCap.pieceType with
            | some pt =>
              some { posa with
                     hands := Function.update posa.hands c.not
                       ((posa.hands c.not).decrement pt) }
            | none => some posa
        | none => some pos1
      match pos2Opt with
      | none => none
      | some pos2 =>
        let pFrom := if m.isPromotion then pTo.demoted else pTo
        match pos2.putPiece fromSq pFrom with
        | none => none
        | some pos3 =>
          some { pos3 with color := pos3.color.not, states := pos3.states.tail }
  | none =>
    match pos.removePiece toSq pTo with
    | none => none
    | some pos1 =>
      let pos2 :=
        match pTo.pieceType with
        | some pt =>
          { pos1 with
            hands := Function.update pos1.hands c.not ((pos1.hands c.not).increment pt) }
        | none => pos1
      some { pos2 with color := pos2.color.not, states := pos2.states.tail }

/-- The back row of the standard opening layout (for `Position::default`). -/
def backRow (f : Fin 9) : PieceType :=
  match f.val with
  | 0 => .KY
  | 1 => .KE
  | 2 => .GI
  | 3 => .KI
  | 4 => .OU
  | 5 => .KI
  | 6 => .GI
  | 7 => .KE
  | _ => .KY

/-- The standard opening layout (the board array of `Position::default`,
re-expressed by (file, rank) coordinates; dense index = file·9 + rank). -/
def defaultBoard (s : Square) : Piece :=
  match s.rank.val with
  | 0 => .piece .White (backRow s.file)
  | 1 =>
    if s.file.val = 1 then .piece .White .KA
    else if s.file.val = 7 then .piece .White .HI
    else .EMP
  | 2 => .piece .White .FU
  | 6 => .piece .Black .FU
  | 7 =>
    if s.file.val = 1 then .piece .Black .HI
    else if s.file.val = 7 then .piece .Black .KA
    else .EMP
  | 8 => .piece .Black (backRow s.file)
  | _ => .EMP

/-- `Position::default`: the standard opening, empty hands, Black to move. -/
def Position.default : Position :=
  Position.new defaultBoard (fun _ _ => 0) .Black

/-! ### Preconditions, operation sequences, and invariant vocabulary -/

/-- Convenience constructor for concrete squares. -/
def mkSq (f r : Nat) (hf : f < 9 := by decide) (hr : r < 9 := by decide) : Square :=
  ⟨⟨f, hf⟩, ⟨r, hr⟩⟩

/-- A base type is promotable iff promotion changes it. -/
def promotableB (pt : PieceType) : Bool := pt.promote != pt

/-- The conditions a move must satisfy to be consistent with the current
board, as guaranteed by the external legal-move generator (the spec's
failure semantics: "supplying a move inconsistent with current board
content produces undefined/incorrect state; this layer trusts the
caller").  For a normal move: the origin holds a piece of the side to
move, the `captured` field records exactly what sits on the destination
(an enemy piece or nothing), and a promoting move moves a promotable
piece.  For a drop: the dropped piece is a hand-type piece of the side to
move, held in its hand, the destination is empty, and drops neither
capture nor promote. -/
def moveOkB (pos : Position) (m : Move) : Bool :=
  match m.fromOpt with
  | some fromSq =>
    (match pos.board fromSq with
     | .piece c _ => c == pos.color
     | .EMP => false) &&
    (match m.captured with
     | some pCap =>
       decide (pos.board m.toSq = pCap) &&
       (match pCap with
        | .piece c _ => c == pos.color.not
        | .EMP => false)
     | none => decide (pos.board m.toSq = .EMP)) &&
    (!m.isPromotion ||
      (match (pos.board fromSq).pieceType with
       | some pt => promotableB pt
       | none => false))
  | none =>
    (match m.piece with
     | .piece c pt =>
       c == pos.color && pt.demote == pt && pt != .OU &&
       decide (0 < (pos.hands pos.color).num pt)
     | .EMP => false) &&
    decide (pos.board m.toSq = .EMP) &&
    m.captured == none && !m.isPromotion

/-- The conditions under which `undo_move` is the exact inverse of the
last applied move (the spec: undo must be called with the move value of
the last applied move, in LIFO order; anything else is undefined).  These
are the facts that hold about the post-move position when the matching
`do_move` was applied: the destination holds the moved piece, the origin
of a normal move is empty and distinct from the destination, and a
recorded capture is a piece the capturer's hand can return. -/
def undoOkB (pos : Position) (m : Move) : Bool :=
  match m.fromOpt with
  | some fromSq =>
    (pos.board m.toSq != Piece.EMP) &&
    decide (pos.board fromSq = Piece.EMP) &&
    (fromSq != m.toSq) &&
    (match m.captured with
     | some pCap =>
       (match pCap with
        | .piece _ pt => decide (0 < (pos.hands pos.color.not).num pt)
        | .EMP => false)
     | none => true)
  | none => pos.board m.toSq != Piece.EMP

/-- A `do_move` or `undo_move` call. -/
inductive Op
  | doM (m : Move)
  | undoM (m : Move)
deriving DecidableEq, Repr

/-- Run one operation. -/
def applyOp (pos : Position) : Op → Option Position
  | .doM m => pos.doMove m
  | .undoM m => pos.undoMove m

/-- The precondition of one operation. -/
def opOkB (pos : Position) : Op → Bool
  | .doM m => moveOkB pos m
  | .undoM m => undoOkB pos m

/-- Run a sequence of do/undo operations. -/
def applyOps (pos : Position) : List Op → Option Position
  | [] => some pos
  | op :: ops =>
    match applyOp pos op with
    | some pos' => applyOps pos' ops
    | none => none

/-- Does every operation of the sequence satisfy its precondition at the
position it is applied to (and succeed)? -/
def okRun (pos : Position) : List Op → Bool
  | [] => true
  | op :: ops =>
    opOkB pos op &&
    (match applyOp pos op with
     | some pos' => okRun pos' ops
     | none => false)

/-- The redundant bitboard index agrees with the board array at square
`s`: each color bitboard holds `s` iff the piece on `s` has that color,
each piece-type bitboard holds `s` iff the piece on `s` has that type, and
the `OCCUPIED` bitboard holds `s` iff `s` is occupied.  (Equivalently, the
case split of the spec: an empty square is in no bitboard; a square with a
`c`-colored piece of type `pt` is in exactly color bitboard `c`, exactly
type bitboard `pt`, and `OCCUPIED`.) -/
def ConsistentAt (pos : Position) (s : Square) : Prop :=
  (∀ c, pos.c_bb c s = decide ((pos.board s).color = some c)) ∧
  (∀ pt, pos.pt_bb pt s = decide ((pos.board s).pieceType = some pt)) ∧
  pos.occ_bb s = (pos.board s).pieceType.isSome

/-- The bitboard index agrees with the board array everywhere. -/
def Consistent (pos : Position) : Prop := ∀ s, ConsistentAt pos s

instance (pos : Position) (s : Square) : Decidable (ConsistentAt pos s) := by
  unfold ConsistentAt; infer_instance

instance (pos : Position) : Decidable (Consistent pos) := by
  unfold Consistent; infer_instance

/-- On-board pieces whose demoted type is `t` (across both colors). -/
def boardCount (pos : Position) (t : PieceType) : Nat :=
  squareList.countP fun s =>
    match pos.board s with
    | .piece _ pt => pt.demote == t
    | .EMP => false

/-- Total count of base type `t`: on-board (promotions collapsed) plus
both hands. -/
def totalCount (pos : Position) (t : PieceType) : Nat :=
  boardCount pos t + (pos.hands .Black).num t + (pos.hands .White).num t

/-! ### C8: construction always records empty checkers -/

/-- **C8.** For every layout, hand counts, and side to move supplied to
`Position::new`, the freshly constructed Position has an empty checkers
bitboard, so `in_check()` returns false immediately after construction —
even when the supplied layout already places the side-to-move's king under
attack (the constructor's check-detection branch is dead code, `// TODO`
in the source). -/
theorem c8_new_checkers_always_empty (board : Square → Piece)
    (handNums : Color → PieceType → Nat) (stm : Color) :
    (Position.new board handNums stm).checkersQ = some bbZero ∧
    (Position.new board handNums stm).inCheckQ = some false := by
  constructor
  · rfl
  · show some (!bbIsEmpty bbZero) = some false
    decide

/-! ### C3: where `calculate_pinned` records the pinned piece -/

/-- The constructed pin scenario of the spec: a Black king on (4,4), a
Black pawn one step along the rank on (5,4), an enemy White rook further
along the same rank on (8,4) with nothing else between, plus the White
king far away on (0,0). -/
def c3board (s : Square) : Piece :=
  if s = mkSq 4 4 then .piece .Black .OU
  else if s = mkSq 5 4 then .piece .Black .FU
  else if s = mkSq 8 4 then .piece .White .HI
  else if s = mkSq 0 0 then .piece .White .OU
  else .EMP

/-- The pin-scenario position. -/
def c3pos : Position := Position.new c3board (fun _ _ => 0) .Black

/-- **C3 (behavior of the source at the failing input).**  In the
constructed rank-pin scenario the lone blocker (the Black pawn, whose king
is Black) is recorded in the `White` component of `pinned()` — the
sniper's color — while the `Black` component (the king's color, where the
claim and the spec place it) is empty.  `calculate_pinned` looks up the
king of `!c` but files the blockers under `c`, and passes the sniper's
color `c` to `pseudo_attack` where the reciprocity convention of
`attackers_to` requires the king-side color, so lance snipers are sought
on the wrong side of the king as well. -/
theorem c3_pinned_recorded_under_sniper_color :
    (c3pos.pinnedQ.map fun pn =>
      (pn .White (mkSq 5 4), pn .Black (mkSq 5 4), bbIsEmpty (pn .Black))) =
      some (true, false, true) := by
  decide

/-! ### C10: a drop's recorded checkers are empty or the drop square alone -/

/-- **C10.** For every drop move applied via `do_move`, the checkers
bitboard of the newly pushed State is either empty or exactly the
singleton containing the drop's destination square: a drop is only ever
recorded as checking with the dropped piece itself, and no other piece is
ever recorded among the checkers of a drop move. -/
theorem c10_drop_checkers_empty_or_dropsquare (pos : Position) (m : Move)
    (hdrop : m.fromOpt = none) (pos' : Position) (h : pos.doMove m = some pos') :
    pos'.checkersQ = some bbZero ∨ pos'.checkersQ = some (bbFromSq m.toSq) := by
  unfold Position.doMove at h
  rw [hdrop] at h
  cases hdd : pos.doDropMove m.toSq m.piece with
  | none => rw [hdd] at h; cases h
  | some y =>
    obtain ⟨p2, st⟩ := y
    rw [hdd] at h
    simp only [Option.some.injEq] at h
    subst h
    have hch : Position.checkersQ
        { p2 with states := st :: p2.states, color := p2.color.not } = some st.checkers := rfl
    rw [hch]
    unfold Position.doDropMove at hdd
    cases hpt : m.piece.pieceType with
    | none => rw [hpt] at hdd; cases hdd
    | some pt =>
      rw [hpt] at hdd
      cases hput : pos.putPiece m.toSq m.piece with
      | none => rw [hput] at hdd; cases hdd
      | some pos1 =>
        rw [hput] at hdd
        simp only [Option.some.injEq, Prod.mk.injEq] at hdd
        obtain ⟨hp2, hst⟩ := hdd
        have hcases : st.checkers = bbZero ∨ st.checkers = bbFromSq m.toSq := by
          rw [← hst]
          dsimp only
          split
          · split_ifs
            · right; rfl
            · left; rfl
          · left; rfl
        rcases hcases with hc | hc
        · left; rw [hc]
        · right; rw [hc]

/-- Witness board for C10: lone kings, Black holding a pawn to drop. -/
def c10board (s : Square) : Piece :=
  if s = mkSq 4 0 then .piece .White .OU
  else if s = mkSq 4 8 then .piece .Black .OU
  else .EMP

/-- Witness position for C10. -/
def c10pos : Position :=
  Position.new c10board (fun c pt => if c = .Black ∧ pt = .FU then 1 else 0) .Black

/-- Witness move for C10: drop the pawn right in front of the White king. -/
def c10move : Move := Move.newDrop (mkSq 4 1) (.piece .Black .FU)

/-- The concrete result of the witness drop. -/
def c10res : Position := (c10pos.doMove c10move).getD Position.default

/-- Witness for C10 at a concrete drop (which gives check). -/
theorem c10_drop_checkers_empty_or_dropsquare_witness :
    c10res.checkersQ = some bbZero ∨ c10res.checkersQ = some (bbFromSq c10move.toSq) :=
  c10_drop_checkers_empty_or_dropsquare c10pos c10move rfl c10res rfl

/-! ### C9: state-stack discipline -/

/-- Number of `do_move` calls in a sequence. -/
def doCount (ops : List Op) : Nat :=
  ops.countP fun op => match op with | .doM _ => true | .undoM _ => false

/-- Number of `undo_move` calls in a sequence. -/
def undoCount (ops : List Op) : Nat :=
  ops.countP fun op => match op with | .doM _ => false | .undoM _ => true

/-- LIFO usage from a running balance of applied-but-not-undone moves: an
undo never occurs with zero applied moves outstanding. -/
def lifoOkAux : Nat → List Op → Bool
  | _, [] => true
  | bal, .doM _ :: ops => lifoOkAux (bal + 1) ops
  | bal, .undoM _ :: ops => bal != 0 && lifoOkAux (bal - 1) ops

/-- LIFO usage starting from a fresh position. -/
def lifoOk (ops : List Op) : Bool := lifoOkAux 0 ops

theorem Position.putPiece_states {pos : Position} {sq : Square} {p : Piece} {q : Position}
    (h : pos.putPiece sq p = some q) : q.states = pos.states := by
  cases p with
  | EMP => cases h
  | piece c pt =>
    simp only [Position.putPiece, Option.some.injEq] at h
    subst h; rfl

theorem Position.removePiece_states {pos : Position} {sq : Square} {p : Piece} {q : Position}
    (h : pos.removePiece sq p = some q) : q.states = pos.states := by
  cases p with
  | EMP => cases h
  | piece c pt =>
    simp only [Position.removePiece, Option.some.injEq] at h
    subst h; rfl

theorem Position.doNormalMove_states {pos : Position} {f t : Square} {promo : Bool}
    {q : Position} {st : State} (h : pos.doNormalMove f t promo = some (q, st)) :
    q.states = pos.states := by
  unfold Position.doNormalMove at h
  dsimp only at h
  cases hr : pos.removePiece f (pos.pieceOn f) with
  | none => rw [hr] at h; cases h
  | some pos1 =>
    rw [hr] at h
    dsimp only at h
    cases hpt : (pos1.pieceOn t).pieceType with
    | none =>
      rw [hpt] at h
      cases hput : pos1.putPiece t (if promo then (pos.pieceOn f).promoted else pos.pieceOn f) with
      | none => rw [hput] at h; cases h
      | some pos3 =>
        rw [hput] at h
        simp only [Option.some.injEq, Prod.mk.injEq] at h
        obtain ⟨hq, _⟩ := h
        subst hq
        rw [Position.putPiece_states hput, Position.removePiece_states hr]
    | some pt =>
      rw [hpt] at h
      cases hput : (Position.putPiece
          { pos1.xorBBs pos.sideToMove.not pt t with
            hands := Function.update pos1.hands pos.sideToMove
              ((pos1.hands pos.sideToMove).increment pt) } t
          (if promo then (pos.pieceOn f).promoted else pos.pieceOn f)) with
      | none => rw [hput] at h; cases h
      | some pos3 =>
        rw [hput] at h
        simp only [Option.some.injEq, Prod.mk.injEq] at h
        obtain ⟨hq, _⟩ := h
        subst hq
        have := Position.putPiece_states hput
        rw [this]
        show pos1.states = pos.states
        rw [Position.removePiece_states hr]

theorem Position.doDropMove_states {pos : Position} {t : Square} {p : Piece}
    {q : Position} {st : State} (h : pos.doDropMove t p = some (q, st)) :
    q.states = pos.states := by
  unfold Position.doDropMove at h
  dsimp only at h
  cases hpt : p.pieceType with
  | none => rw [hpt] at h; cases h
  | some pt =>
    rw [hpt] at h
    cases hput : pos.putPiece t p with
    | none => rw [hput] at h; cases h
    | some pos1 =>
      rw [hput] at h
      simp only [Option.some.injEq, Prod.mk.injEq] at h
      obtain ⟨hq, _⟩ := h
      subst hq
      show pos1.states = pos.states
      exact Position.putPiece_states hput

theorem Position.doMove_states {pos : Position} {m : Move} {q : Position}
    (h : pos.doMove m = some q) : ∃ st, q.states = st :: pos.states := by
  unfold Position.doMove at h
  cases hf : m.fromOpt with
  | some f =>
    rw [hf] at h
    dsimp only at h
    cases hd : pos.doNormalMove f m.toSq m.isPromotion with
    | none => rw [hd] at h; cases h
    | some y =>
      obtain ⟨p', st⟩ := y
      rw [hd] at h
      dsimp only at h
      simp only [Option.some.injEq] at h
      subst h
      exact ⟨st, by show st :: p'.states = st :: pos.states
                    rw [Position.doNormalMove_states hd]⟩
  | none =>
    rw [hf] at h
    dsimp only at h
    cases hd : pos.doDropMove m.toSq m.piece with
    | none => rw [hd] at h; cases h
    | some y =>
      obtain ⟨p', st⟩ := y
      rw [hd] at h
      dsimp only at h
      simp only [Option.some.injEq] at h
      subst h
      exact ⟨st, by show st :: p'.states = st :: pos.states
                    rw [Position.doDropMove_states hd]⟩

theorem Position.undoMove_states {pos : Position} {m : Move} {q : Position}
    (h : pos.undoMove m = some q) : q.states = pos.states.tail := by
  unfold Position.undoMove at h
  dsimp only at h
  cases hf : m.fromOpt with
  | some f =>
    rw [hf] at h
    dsimp only at h
    cases hr : pos.removePiece m.toSq (pos.pieceOn m.toSq) with
    | none => rw [hr] at h; cases h
    | some pos1 =>
      rw [hr] at h
      dsimp only at h
      have hstates1 : pos1.states = pos.states := Position.removePiece_states hr
      cases hcap : m.captured with
      | some pCap =>
        rw [hcap] at h
        dsimp only at h
        cases hput : pos1.putPiece m.toSq pCap with
        | none => rw [hput] at h; cases h
        | some posa =>
          rw [hput] at h
          dsimp only at h
          have hstatesa : posa.states = pos.states :=
            (Position.putPiece_states hput).trans hstates1
          cases hpt : pCap.pieceType with
          | some pt =>
            rw [hpt] at h
            dsimp only at h
            cases hput3 : (Position.putPiece
                { posa with
                  hands := Function.update posa.hands pos.sideToMove.not
                    ((posa.hands pos.sideToMove.not).decrement pt) } f
                (if m.isPromotion then (pos.pieceOn m.toSq).demoted else pos.pieceOn m.toSq)) with
            | none => rw [hput3] at h; cases h
            | some pos3 =>
              rw [hput3] at h
              dsimp only at h
              simp only [Option.some.injEq] at h
              subst h
              show pos3.states.tail = pos.states.tail
              rw [Position.putPiece_states hput3]
              show posa.states.tail = pos.states.tail
              rw [hstatesa]
          | none =>
            rw [hpt] at h
            dsimp only at h
            cases hput3 : posa.putPiece f
                (if m.isPromotion then (pos.pieceOn m.toSq).demoted else pos.pieceOn m.toSq) with
            | none => rw [hput3] at h; cases h
            | some pos3 =>
              rw [hput3] at h
              dsimp only at h
              simp only [Option.some.injEq] at h
              subst h
              show pos3.states.tail = pos.states.tail
              rw [Position.putPiece_states hput3, hstatesa]
      | none =>
        rw [hcap] at h
        dsimp only at h
        cases hput3 : pos1.putPiece f
            (if m.isPromotion then (pos.pieceOn m.toSq).demoted else pos.pieceOn m.toSq) with
        | none => rw [hput3] at h; cases h
        | some pos3 =>
          rw [hput3] at h
          dsimp only at h
          simp only [Option.some.injEq] at h
          subst h
          show pos3.states.tail = pos.states.tail
          rw [Position.putPiece_states hput3, hstates1]
  | none =>
    rw [hf] at h
    dsimp only at h
    cases hr : pos.removePiece m.toSq (pos.pieceOn m.toSq) with
    | none => rw [hr] at h; cases h
    | some pos1 =>
      rw [hr] at h
      dsimp only at h
      have hstates1 : pos1.states = pos.states := Position.removePiece_states hr
      cases hpt : (pos.pieceOn m.toSq).pieceType with
      | some pt =>
        rw [hpt] at h
        dsimp only at h
        simp only [Option.some.injEq] at h
        subst h
        show pos1.states.tail = pos.states.tail
        rw [hstates1]
      | none =>
        rw [hpt] at h
        dsimp only at h
        simp only [Option.some.injEq] at h
        subst h
        show pos1.states.tail = pos.states.tail
        rw [hstates1]

theorem applyOps_states_length : ∀ (ops : List Op) (pos pos' : Position) (bal : Nat),
    lifoOkAux bal ops = true → pos.states.length = bal + 1 →
    applyOps pos ops = some pos' →
    pos'.states.length + undoCount ops = bal + 1 + doCount ops ∧
    ∃ balFin, pos'.states.length = balFin + 1 := by
  intro ops
  induction ops with
  | nil =>
    intro pos pos' bal hok hlen happ
    simp only [applyOps, Option.some.injEq] at happ
    subst happ
    exact ⟨by simp [doCount, undoCount, hlen], bal, hlen⟩
  | cons op ops ih =>
    intro pos pos' bal hok hlen happ
    cases op with
    | doM m =>
      simp only [lifoOkAux] at hok
      unfold applyOps at happ
      cases hstep : applyOp pos (.doM m) with
      | none => rw [hstep] at happ; cases happ
      | some q =>
        rw [hstep] at happ
        dsimp only at happ
        have hstep' : pos.doMove m = some q := hstep
        obtain ⟨st, hq⟩ := Position.doMove_states hstep'
        have hlen' : q.states.length = (bal + 1) + 1 := by
          rw [hq]; simp [hlen]
        obtain ⟨heq, hfin⟩ := ih q pos' (bal + 1) hok hlen' happ
        refine ⟨?_, hfin⟩
        simp [doCount, undoCount, List.countP_cons] at heq ⊢
        omega
    | undoM m =>
      simp only [lifoOkAux, Bool.and_eq_true, bne_iff_ne, ne_eq] at hok
      obtain ⟨hbal, hok⟩ := hok
      unfold applyOps at happ
      cases hstep : applyOp pos (.undoM m) with
      | none => rw [hstep] at happ; cases happ
      | some q =>
        rw [hstep] at happ
        dsimp only at happ
        have hstep' : pos.undoMove m = some q := hstep
        have hq := Position.undoMove_states hstep'
        have hlen' : q.states.length = (bal - 1) + 1 := by
          rw [hq, List.length_tail, hlen]; omega
        obtain ⟨heq, hfin⟩ := ih q pos' (bal - 1) hok hlen' happ
        refine ⟨?_, hfin⟩
        simp [doCount, undoCount, List.countP_cons] at heq ⊢
        omega

/-- **C9.** For every Position built by `Position::new` and then mutated by
do_move/undo_move calls applied in LIFO order (never undoing with no
outstanding applied move), the state stack length equals the number of
do_moves minus the number of undo_moves plus one, hence is at least 1;
consequently the empty-stack defensive fault of `checkers()`/`pinned()` is
unreachable under this usage, and those queries fault precisely on an
empty stack. -/
theorem c9_stack_discipline (board : Square → Piece) (handNums : Color → PieceType → Nat)
    (stm : Color) (ops : List Op) (pos' : Position)
    (hlifo : lifoOk ops = true)
    (happ : applyOps (Position.new board handNums stm) ops = some pos') :
    pos'.states.length = doCount ops - undoCount ops + 1 ∧
    undoCount ops ≤ doCount ops ∧
    1 ≤ pos'.states.length ∧
    pos'.checkersQ.isSome = true ∧ pos'.pinnedQ.isSome = true ∧
    (∀ q : Position, q.checkersQ = none ↔ q.states = []) ∧
    (∀ q : Position, q.pinnedQ = none ↔ q.states = []) := by
  have hlen0 : (Position.new board handNums stm).states.length = 0 + 1 := rfl
  obtain ⟨heq, balFin, hfin⟩ :=
    applyOps_states_length ops (Position.new board handNums stm) pos' 0 hlifo hlen0 happ
  have h1 : 1 ≤ pos'.states.length := by omega
  have hne : pos'.states ≠ [] := by
    intro he
    rw [he] at h1
    simp at h1
  have hckiff : ∀ q : Position, q.checkersQ = none ↔ q.states = [] := by
    intro q
    unfold Position.checkersQ Position.state
    rw [Option.map_eq_none']
    exact List.head?_eq_none_iff
  have hpniff : ∀ q : Position, q.pinnedQ = none ↔ q.states = [] := by
    intro q
    unfold Position.pinnedQ Position.state
    rw [Option.map_eq_none']
    exact List.head?_eq_none_iff
  refine ⟨by omega, by omega, h1, ?_, ?_, hckiff, hpniff⟩
  · rw [← Option.ne_none_iff_isSome]
    intro hno
    exact hne ((hckiff pos').mp hno)
  · rw [← Option.ne_none_iff_isSome]
    intro hno
    exact hne ((hpniff pos').mp hno)

/-- Witness move for C9 (a pawn push from the standard opening). -/
def c9move : Move := Move.newNormal (mkSq 6 6) (mkSq 6 5) false (.piece .Black .FU) none

/-- Witness op sequence for C9: do, undo (LIFO), do again. -/
def c9ops : List Op := [.doM c9move, .undoM c9move, .doM c9move]

/-- The concrete result of the witness sequence. -/
def c9res : Position := (applyOps Position.default c9ops).getD Position.default

/-- Witness for C9 at a concrete LIFO sequence from the standard opening. -/
theorem c9_stack_discipline_witness :
    c9res.states.length = doCount c9ops - undoCount c9ops + 1 ∧
    undoCount c9ops ≤ doCount c9ops ∧
    1 ≤ c9res.states.length ∧
    c9res.checkersQ.isSome = true ∧ c9res.pinnedQ.isSome = true ∧
    (∀ q : Position, q.checkersQ = none ↔ q.states = []) ∧
    (∀ q : Position, q.pinnedQ = none ↔ q.states = []) :=
  c9_stack_discipline defaultBoard (fun _ _ => 0) .Black c9ops c9res (by decide) rfl

/-! ### C1: do_move followed by undo_move restores the position -/

theorem bbXorSq_bbXorSq (b : Bitboard) (sq : Square) : bbXorSq (bbXorSq b sq) sq = b := by
  funext s
  simp [bbXorSq, Bool.xor_assoc]

theorem Color.not_ne (c : Color) : c.not ≠ c := by cases c <;> decide

theorem Color.ne_not (c : Color) : c ≠ c.not := by cases c <;> decide

/-- The snapshot `do_normal_move` pushes: checkers against the opponent of
`mover` computed on `pos3`, plus recomputed pins (proof-layer shorthand
matching the tail of `do_normal_move`). -/
def pushState (pos3 : Position) (mover : Color) : State :=
  ⟨match pos3.king mover.not with
    | some sq => pos3.attackersTo mover sq
    | none => bbZero,
   State.calculatePinned pos3.c_bb pos3.pt_bb pos3.occ_bb⟩

/-- The mutated position (before the state push and side flip) after a
non-capturing normal move of a `ptf`-piece of the side to move from `f`
(proof-layer shorthand). -/
def afterNormalNoCapCore (pos : Position) (m : Move) (f : Square) (ptf : PieceType) :
    Position :=
  let ptIf := if m.isPromotion = true then ptf.promote else ptf
  { board := Function.update (Function.update pos.board f .EMP) m.toSq
      (.piece pos.color ptIf)
    hands := pos.hands
    color := pos.color
    c_bb := Function.update pos.c_bb pos.color
      (bbXorSq (bbXorSq (pos.c_bb pos.color) f) m.toSq)
    pt_bb := Function.update (Function.update pos.pt_bb ptf (bbXorSq (pos.pt_bb ptf) f)) ptIf
      (bbXorSq (Function.update pos.pt_bb ptf (bbXorSq (pos.pt_bb ptf) f) ptIf) m.toSq)
    occ_bb := bbXorSq (bbXorSq pos.occ_bb f) m.toSq
    states := pos.states }

theorem doMove_normal_nocap_eq (pos : Position) (m : Move) (f : Square) (ptf : PieceType)
    (hf : m.fromOpt = some f)
    (hbf : pos.board f = Piece.piece pos.color ptf)
    (hcapm : m.captured = none)
    (hto : pos.board m.toSq = Piece.EMP)
    (hne : m.toSq ≠ f) :
    pos.doMove m = some
      { afterNormalNoCapCore pos m f ptf with
        color := pos.color.not
        states := pushState (afterNormalNoCapCore pos m f ptf) pos.color :: pos.states } := by
  have hpieceTo : (if m.isPromotion = true then (Piece.piece pos.color ptf).promoted
      else Piece.piece pos.color ptf) =
      Piece.piece pos.color (if m.isPromotion = true then ptf.promote else ptf) := by
    cases m.isPromotion <;> rfl
  unfold Position.doMove Position.doNormalMove
  rw [hf]
  dsimp only [Position.pieceOn, Position.sideToMove]
  rw [hbf]
  dsimp only [Position.removePiece, Position.xorBBs]
  rw [Function.update_noteq hne, hto]
  dsimp only [Piece.pieceType]
  rw [hpieceTo]
  dsimp only [Position.putPiece, Position.xorBBs]
  simp only [Function.update_same, Function.update_idem]
  rfl

theorem undoMove_normal_nocap_eq (pos : Position) (m : Move) (f : Square) (ptf : PieceType)
    (st : State)
    (hf : m.fromOpt = some f)
    (hbf : pos.board f = Piece.piece pos.color ptf)
    (hcapm : m.captured = none)
    (hto : pos.board m.toSq = Piece.EMP)
    (hne : m.toSq ≠ f)
    (hdp : m.isPromotion = true → ptf.promote.demote = ptf) :
    (Position.undoMove
      { afterNormalNoCapCore pos m f ptf with
        color := pos.color.not
        states := st :: pos.states } m) = some pos := by
  have hnef : f ≠ m.toSq := fun he => hne he.symm
  unfold Position.undoMove afterNormalNoCapCore
  rw [hf, hcapm]
  dsimp only [Position.pieceOn, Position.sideToMove]
  simp only [Function.update_same]
  have hpFrom : (if m.isPromotion = true
      then (Piece.piece pos.color (if m.isPromotion = true then ptf.promote else ptf)).demoted
      else Piece.piece pos.color (if m.isPromotion = true then ptf.promote else ptf)) =
      Piece.piece pos.color ptf := by
    cases hpm : m.isPromotion
    · rfl
    · show Piece.piece pos.color ptf.promote.demote = Piece.piece pos.color ptf
      rw [hdp hpm]
  rw [hpFrom]
  dsimp only [Position.removePiece, Position.xorBBs]
  dsimp only [Position.putPiece, Position.xorBBs]
  simp only [Function.update_same, Function.update_idem]
  refine congrArg some ?_
  refine Position.ext ?_ ?_ ?_ ?_ ?_ ?_ ?_
  · -- board
    dsimp only
    funext s
    rcases eq_or_ne s f with rfl | hsf
    · rw [Function.update_same]
      exact hbf.symm
    · rw [Function.update_noteq hsf]
      rcases eq_or_ne s m.toSq with rfl | hst
      · rw [Function.update_same]
        exact hto.symm
      · rw [Function.update_noteq hst, Function.update_noteq hsf]
  · -- hands
    rfl
  · -- color
    exact Color.not_not pos.color
  · -- c_bb
    dsimp only
    funext c'
    rcases eq_or_ne c' pos.color with rfl | hc
    · simp [Function.update_same, bbXorSq_bbXorSq]
    · rw [Function.update_noteq hc]
  · -- pt_bb
    dsimp only
    generalize (if m.isPromotion = true then ptf.promote else ptf) = ptIf
    funext q
    simp only [Function.update_apply]
    by_cases hq1 : q = ptf <;> by_cases hq2 : q = ptIf <;>
      simp_all [bbXorSq_bbXorSq]
  · -- occ_bb
    dsimp only
    simp [bbXorSq_bbXorSq]
  · -- states
    rfl


theorem Hand.decrement_increment (h : Hand) (pt : PieceType) :
    (h.increment pt).decrement pt = h := by
  unfold Hand.increment Hand.decrement
  rw [Function.update_idem, Function.update_same, Nat.add_sub_cancel, Function.update_eq_self]

theorem Hand.increment_decrement (h : Hand) (pt : PieceType) (hpos : 0 < h pt.demote) :
    (h.decrement pt).increment pt = h := by
  unfold Hand.increment Hand.decrement
  rw [Function.update_idem, Function.update_same]
  have hsub : h pt.demote - 1 + 1 = h pt.demote := by omega
  rw [hsub, Function.update_eq_self]

/-- The mutated position (before the state push and side flip) after a
capturing normal move of a `ptf`-piece of the side to move from `f`,
taking an enemy `ptc`-piece on the destination (proof-layer shorthand). -/
def afterNormalCapCore (pos : Position) (m : Move) (f : Square) (ptf ptc : PieceType) :
    Position :=
  let ptIf := if m.isPromotion = true then ptf.promote else ptf
  let cbbA := Function.update pos.c_bb pos.color (bbXorSq (pos.c_bb pos.color) f)
  let cbbB := Function.update cbbA pos.color.not (bbXorSq (cbbA pos.color.not) m.toSq)
  let ptbbA := Function.update pos.pt_bb ptf (bbXorSq (pos.pt_bb ptf) f)
  let ptbbB := Function.update ptbbA ptc (bbXorSq (ptbbA ptc) m.toSq)
  { board := Function.update (Function.update pos.board f .EMP) m.toSq
      (.piece pos.color ptIf)
    hands := Function.update pos.hands pos.color ((pos.hands pos.color).increment ptc)
    color := pos.color
    c_bb := Function.update cbbB pos.color (bbXorSq (cbbB pos.color) m.toSq)
    pt_bb := Function.update ptbbB ptIf (bbXorSq (ptbbB ptIf) m.toSq)
    occ_bb := bbXorSq (bbXorSq (bbXorSq pos.occ_bb f) m.toSq) m.toSq
    states := pos.states }

theorem doMove_normal_cap_eq (pos : Position) (m : Move) (f : Square) (ptf ptc : PieceType)
    (hf : m.fromOpt = some f)
    (hbf : pos.board f = Piece.piece pos.color ptf)
    (hcapm : m.captured = some (Piece.piece pos.color.not ptc))
    (hto : pos.board m.toSq = Piece.piece pos.color.not ptc)
    (hne : m.toSq ≠ f) :
    pos.doMove m = some
      { afterNormalCapCore pos m f ptf ptc with
        color := pos.color.not
        states := pushState (afterNormalCapCore pos m f ptf ptc) pos.color :: pos.states } := by
  have hpieceTo : (if m.isPromotion = true then (Piece.piece pos.color ptf).promoted
      else Piece.piece pos.color ptf) =
      Piece.piece pos.color (if m.isPromotion = true then ptf.promote else ptf) := by
    cases m.isPromotion <;> rfl
  unfold Position.doMove Position.doNormalMove
  rw [hf]
  dsimp only [Position.pieceOn, Position.sideToMove]
  rw [hbf]
  dsimp only [Position.removePiece, Position.xorBBs]
  rw [Function.update_noteq hne, hto]
  dsimp only [Piece.pieceType]
  rw [hpieceTo]
  dsimp only [Position.putPiece, Position.xorBBs]
  rfl

theorem undoMove_normal_cap_eq (pos : Position) (m : Move) (f : Square) (ptf ptc : PieceType)
    (st : State)
    (hf : m.fromOpt = some f)
    (hbf : pos.board f = Piece.piece pos.color ptf)
    (hcapm : m.captured = some (Piece.piece pos.color.not ptc))
    (hto : pos.board m.toSq = Piece.piece pos.color.not ptc)
    (hne : m.toSq ≠ f)
    (hdp : m.isPromotion = true → ptf.promote.demote = ptf) :
    (Position.undoMove
      { afterNormalCapCore pos m f ptf ptc with
        color := pos.color.not
        states := st :: pos.states } m) = some pos := by
  have hnef : f ≠ m.toSq := fun he => hne he.symm
  unfold Position.undoMove afterNormalCapCore
  rw [hf, hcapm]
  dsimp only [Position.pieceOn, Position.sideToMove]
  simp only [Function.update_same]
  have hpFrom : (if m.isPromotion = true
      then (Piece.piece pos.color (if m.isPromotion = true then ptf.promote else ptf)).demoted
      else Piece.piece pos.color (if m.isPromotion = true then ptf.promote else ptf)) =
      Piece.piece pos.color ptf := by
    cases hpm : m.isPromotion
    · rfl
    · show Piece.piece pos.color ptf.promote.demote = Piece.piece pos.color ptf
      rw [hdp hpm]
  rw [hpFrom]
  dsimp only [Position.removePiece, Position.xorBBs]
  dsimp only [Position.putPiece, Position.xorBBs]
  dsimp only [Piece.pieceType]
  simp only [Color.not_not]
  refine congrArg some ?_
  refine Position.ext ?_ ?_ ?_ ?_ ?_ ?_ ?_
  · -- board
    dsimp only
    funext s
    rcases eq_or_ne s f with rfl | hsf
    · rw [Function.update_same]
      exact hbf.symm
    · rw [Function.update_noteq hsf]
      rcases eq_or_ne s m.toSq with rfl | hst
      · simp only [Function.update_idem, Function.update_same]
        exact hto.symm
      · simp only [Function.update_apply, if_neg hst, if_neg hsf]
  · -- hands
    dsimp only
    simp only [Function.update_idem]
    rw [Color.not_not, Function.update_same, Hand.decrement_increment, Function.update_eq_self]
  · -- color
    rfl
  · -- c_bb
    dsimp only
    funext c'
    by_cases hcp : c' = pos.color <;> by_cases hcn : c' = pos.color.not <;>
      simp_all [Function.update_apply, bbXorSq_bbXorSq, Color.ne_not, Color.not_ne]
  · -- pt_bb
    dsimp only
    generalize (if m.isPromotion = true then ptf.promote else ptf) = ptIf
    funext q
    by_cases hq1 : q = ptf <;> by_cases hq2 : q = ptc <;> by_cases hq3 : q = ptIf <;>
      simp_all [Function.update_apply, bbXorSq_bbXorSq]
  · -- occ_bb
    dsimp only
    simp [bbXorSq_bbXorSq]
  · -- states
    rfl

/-- The mutated position (before the state push and side flip) after
dropping a `ptd`-piece of the side to move on the (empty) destination
(proof-layer shorthand). -/
def afterDropCore (pos : Position) (m : Move) (ptd : PieceType) : Position :=
  { board := Function.update pos.board m.toSq (.piece pos.color ptd)
    hands := Function.update pos.hands pos.color ((pos.hands pos.color).decrement ptd)
    color := pos.color
    c_bb := Function.update pos.c_bb pos.color (bbXorSq (pos.c_bb pos.color) m.toSq)
    pt_bb := Function.update pos.pt_bb ptd (bbXorSq (pos.pt_bb ptd) m.toSq)
    occ_bb := bbXorSq pos.occ_bb m.toSq
    states := pos.states }

/-- The snapshot `do_drop_move` pushes (proof-layer shorthand matching the
tail of `do_drop_move`). -/
def pushStateDrop (pos2 : Position) (mover : Color) (pt : PieceType) (toSq : Square) : State :=
  ⟨match pos2.king mover.not with
    | some sq =>
      if !bbIsEmpty (bbAnd (attackTable pt toSq mover pos2.occupied) (bbFromSq sq)) then
        bbFromSq toSq
      else
        bbZero
    | none => bbZero,
   State.calculatePinned pos2.c_bb pos2.pt_bb pos2.occ_bb⟩

theorem doMove_drop_eq (pos : Position) (m : Move) (ptd : PieceType)
    (hf : m.fromOpt = none)
    (hp : m.piece = Piece.piece pos.color ptd) :
    pos.doMove m = some
      { afterDropCore pos m ptd with
        color := pos.color.not
        states := pushStateDrop (afterDropCore pos m ptd) pos.color ptd m.toSq
          :: pos.states } := by
  unfold Position.doMove Position.doDropMove
  rw [hf, hp]
  dsimp only [Position.pieceOn, Position.sideToMove, Piece.pieceType]
  dsimp only [Position.putPiece, Position.xorBBs]
  rfl

theorem undoMove_drop_eq (pos : Position) (m : Move) (ptd : PieceType) (st : State)
    (hf : m.fromOpt = none)
    (hp : m.piece = Piece.piece pos.color ptd)
    (hto : pos.board m.toSq = Piece.EMP)
    (hcnt : 0 < pos.hands pos.color ptd.demote) :
    (Position.undoMove
      { afterDropCore pos m ptd with
        color := pos.color.not
        states := st :: pos.states } m) = some pos := by
  unfold Position.undoMove afterDropCore
  rw [hf]
  dsimp only [Position.pieceOn, Position.sideToMove]
  simp only [Function.update_same]
  dsimp only [Position.removePiece, Position.xorBBs, Piece.pieceType]
  refine congrArg some ?_
  refine Position.ext ?_ ?_ ?_ ?_ ?_ ?_ ?_
  · -- board
    dsimp only
    funext s
    rcases eq_or_ne s m.toSq with rfl | hst
    · simp only [Function.update_idem, Function.update_same]
      exact hto.symm
    · simp only [Function.update_apply, if_neg hst]
  · -- hands
    dsimp only
    rw [Color.not_not]
    simp only [Function.update_idem]
    rw [Function.update_same, Hand.increment_decrement _ _ hcnt, Function.update_eq_self]
  · -- color
    dsimp only
    exact Color.not_not pos.color
  · -- c_bb
    dsimp only
    funext c'
    rcases eq_or_ne c' pos.color with rfl | hc
    · simp [Function.update_same, bbXorSq_bbXorSq]
    · rw [Function.update_noteq hc, Function.update_noteq hc]
  · -- pt_bb
    dsimp only
    funext q
    rcases eq_or_ne q ptd with rfl | hq
    · simp [Function.update_same, bbXorSq_bbXorSq]
    · rw [Function.update_noteq hq, Function.update_noteq hq]
  · -- occ_bb
    dsimp only
    simp [bbXorSq_bbXorSq]
  · -- states
    rfl

theorem promotableB_demote_promote (pt : PieceType) (h : promotableB pt = true) :
    pt.promote.demote = pt := by
  revert h
  cases pt <;> decide

/-- **C1.** For every Position `P` and every move `m` consistent with `P`
as the legal-move generator guarantees (`moveOkB`), `do_move(m)` followed
by `undo_move(m)` yields a Position observationally identical to `P`: the
piece on every square, the hands of both colors, the side to move, and the
in-check status are all unchanged (indeed the proof restores `P` exactly,
state stack included). -/
theorem c1_do_undo_roundtrip (pos : Position) (m : Move) (hok : moveOkB pos m = true) :
    ∃ pos1 pos2, pos.doMove m = some pos1 ∧ pos1.undoMove m = some pos2 ∧
      (∀ sq, pos2.pieceOn sq = pos.pieceOn sq) ∧
      (∀ c, pos2.hand c = pos.hand c) ∧
      pos2.sideToMove = pos.sideToMove ∧
      pos2.inCheckQ = pos.inCheckQ := by
  unfold moveOkB at hok
  cases hfm : m.fromOpt with
  | some f =>
    rw [hfm] at hok
    simp only [Bool.and_eq_true] at hok
    obtain ⟨⟨ha, hb⟩, hc⟩ := hok
    cases hbf : pos.board f with
    | EMP => rw [hbf] at ha; cases ha
    | piece c0 pt0 =>
      rw [hbf] at ha hc
      have hc0 : c0 = pos.color := by
        dsimp only at ha
        exact beq_iff_eq.mp ha
      subst hc0
      have hdp : m.isPromotion = true → pt0.promote.demote = pt0 := by
        intro hpm
        rw [hpm] at hc
        dsimp only [Piece.pieceType, Bool.not_true, Bool.false_or] at hc
        exact promotableB_demote_promote pt0 hc
      cases hcap : m.captured with
      | none =>
        rw [hcap] at hb
        have hto : pos.board m.toSq = Piece.EMP := by
          dsimp only at hb
          exact of_decide_eq_true hb
        have hne : m.toSq ≠ f := by
          intro he
          rw [he, hbf] at hto
          cases hto
        refine ⟨_, pos, doMove_normal_nocap_eq pos m f pt0 hfm hbf hcap hto hne, ?_, ?_, ?_, ?_, ?_⟩
        · exact undoMove_normal_nocap_eq pos m f pt0 _ hfm hbf hcap hto hne hdp
        · intro sq; rfl
        · intro c; rfl
        · rfl
        · rfl
      | some pCap =>
        rw [hcap] at hb
        simp only [Bool.and_eq_true] at hb
        obtain ⟨hb1, hb2⟩ := hb
        cases hpc : pCap with
        | EMP => rw [hpc] at hb2; cases hb2
        | piece cc ptc =>
          rw [hpc] at hb1 hb2
          have hcc : cc = pos.color.not := by
            dsimp only at hb2
            exact beq_iff_eq.mp hb2
          subst hcc
          have hto : pos.board m.toSq = Piece.piece pos.color.not ptc :=
            of_decide_eq_true hb1
          have hne : m.toSq ≠ f := by
            intro he
            rw [he, hbf] at hto
            have : pos.color = pos.color.not := by
              injection hto with h1 h2
            exact Color.ne_not pos.color this
          rw [hpc] at hcap
          refine ⟨_, pos, doMove_normal_cap_eq pos m f pt0 ptc hfm hbf hcap hto hne, ?_, ?_, ?_, ?_, ?_⟩
          · exact undoMove_normal_cap_eq pos m f pt0 ptc _ hfm hbf hcap hto hne hdp
          · intro sq; rfl
          · intro c; rfl
          · rfl
          · rfl
  | none =>
    rw [hfm] at hok
    simp only [Bool.and_eq_true] at hok
    obtain ⟨⟨⟨hp1, hp2⟩, hp3⟩, hp4⟩ := hok
    cases hmp : m.piece with
    | EMP => rw [hmp] at hp1; cases hp1
    | piece cd ptd =>
      rw [hmp] at hp1
      simp only [Bool.and_eq_true] at hp1
      obtain ⟨⟨⟨hd1, hd2⟩, hd3⟩, hd4⟩ := hp1
      have hcd : cd = pos.color := beq_iff_eq.mp hd1
      subst hcd
      have hto : pos.board m.toSq = Piece.EMP := of_decide_eq_true hp2
      have hcnt : 0 < pos.hands pos.color ptd.demote := of_decide_eq_true hd4
      refine ⟨_, pos, doMove_drop_eq pos m ptd hfm hmp, ?_, ?_, ?_, ?_, ?_⟩
      · exact undoMove_drop_eq pos m ptd _ hfm hmp hto hcnt
      · intro sq; rfl
      · intro c; rfl
      · rfl
      · rfl

/-- Witness move for C1: the bishop capture-with-promotion 88x22+ (its
board-consistency conditions hold in the standard opening). -/
def c1move : Move :=
  Move.newNormal (mkSq 7 7) (mkSq 1 1) true (.piece .Black .UM) (some (.piece .White .KA))

/-- Witness for C1 at a concrete capturing promotion from the standard
opening. -/
theorem c1_do_undo_roundtrip_witness :
    moveOkB Position.default c1move = true ∧
    (∃ pos1 pos2, Position.default.doMove c1move = some pos1 ∧
      pos1.undoMove c1move = some pos2 ∧
      (∀ sq, pos2.pieceOn sq = Position.default.pieceOn sq) ∧
      (∀ c, pos2.hand c = Position.default.hand c) ∧
      pos2.sideToMove = Position.default.sideToMove ∧
      pos2.inCheckQ = Position.default.inCheckQ) :=
  ⟨by decide, c1_do_undo_roundtrip Position.default c1move (by decide)⟩

/-! ### C4: capture bookkeeping of do_normal_move -/

theorem bbXorSq_app_self (b : Bitboard) (sq : Square) : bbXorSq b sq sq = !(b sq) := by
  simp [bbXorSq]

theorem bbXorSq_app_noteq (b : Bitboard) (sq s : Square) (h : s ≠ sq) :
    bbXorSq b sq s = b s := by
  simp [bbXorSq, h]

theorem PieceType.demote_demote (pt : PieceType) : pt.demote.demote = pt.demote := by
  cases pt <;> rfl

/-- **C4.** For every normal move applied by `do_move` whose destination
square holds an enemy piece (recorded in the move's `captured` field, as
the generator guarantees), in the resulting position the captured piece is
removed from the board (the destination now holds the moving piece, in
promoted form when the flag is set) and from the enemy's occupancy
bitboard (the destination bit of the enemy color bitboard is cleared,
while the square stays occupied), and the moving side's hand count for the
captured piece's demoted (base) type is incremented. -/
theorem c4_capture_bookkeeping (pos : Position) (m : Move) (f : Square) (pCap : Piece)
    (hcons : Consistent pos)
    (hok : moveOkB pos m = true)
    (hf : m.fromOpt = some f)
    (hcap : m.captured = some pCap)
    (pos1 : Position) (hdo : pos.doMove m = some pos1) :
    ∃ ptc, pCap = Piece.piece pos.sideToMove.not ptc ∧
      pos1.pieceOn m.toSq =
        (if m.isPromotion = true then (pos.pieceOn f).promoted else pos.pieceOn f) ∧
      pos1.piecesC pos.sideToMove.not m.toSq = false ∧
      pos1.occupied m.toSq = true ∧
      (pos1.hand pos.sideToMove).num ptc.demote =
        (pos.hand pos.sideToMove).num ptc.demote + 1 := by
  unfold moveOkB at hok
  rw [hf, hcap] at hok
  simp only [Bool.and_eq_true] at hok
  obtain ⟨⟨ha, hb1, hb2⟩, hc⟩ := hok
  cases hbf : pos.board f with
  | EMP => rw [hbf] at ha; cases ha
  | piece c0 pt0 =>
    rw [hbf] at ha
    have hc0 : c0 = pos.color := by
      dsimp only at ha
      exact beq_iff_eq.mp ha
    subst hc0
    cases hpc : pCap with
    | EMP => rw [hpc] at hb2; cases hb2
    | piece cc ptc =>
      rw [hpc] at hb1 hb2
      have hcc : cc = pos.color.not := by
        dsimp only at hb2
        exact beq_iff_eq.mp hb2
      subst hcc
      have hto : pos.board m.toSq = Piece.piece pos.color.not ptc := of_decide_eq_true hb1
      have hne : m.toSq ≠ f := by
        intro he
        rw [he, hbf] at hto
        have : pos.color = pos.color.not := by injection hto with h1 h2
        exact Color.ne_not pos.color this
      rw [hpc] at hcap
      have heq := (doMove_normal_cap_eq pos m f pt0 ptc hf hbf hcap hto hne).symm.trans hdo
      simp only [Option.some.injEq] at heq
      subst heq
      refine ⟨ptc, rfl, ?_, ?_, ?_, ?_⟩
      · -- destination holds the moving piece
        show (afterNormalCapCore pos m f pt0 ptc).board m.toSq = _
        unfold afterNormalCapCore
        dsimp only
        rw [Function.update_same]
        dsimp only [Position.pieceOn]
        rw [hbf]
        cases m.isPromotion <;> rfl
      · -- enemy color bitboard cleared at the destination
        show (afterNormalCapCore pos m f pt0 ptc).c_bb pos.color.not m.toSq = false
        unfold afterNormalCapCore
        dsimp only
        rw [Function.update_noteq (Color.not_ne pos.color), Function.update_same,
          Function.update_noteq (Color.not_ne pos.color)]
        rw [bbXorSq_app_self]
        have hset := (hcons m.toSq).1 pos.color.not
        rw [hto] at hset
        rw [hset]
        simp [Piece.color]
      · -- the square stays occupied
        show (afterNormalCapCore pos m f pt0 ptc).occ_bb m.toSq = true
        unfold afterNormalCapCore
        dsimp only
        rw [bbXorSq_app_self, bbXorSq_app_self, bbXorSq_app_noteq _ _ _ hne]
        have := (hcons m.toSq).2.2
        rw [hto] at this
        rw [this]
        rfl
      · -- hand incremented at the demoted type
        show Hand.num ((afterNormalCapCore pos m f pt0 ptc).hands pos.color) ptc.demote = _
        unfold afterNormalCapCore
        dsimp only
        rw [Function.update_same]
        unfold Hand.num Hand.increment
        rw [PieceType.demote_demote, Function.update_same]
        rfl

/-- The concrete result of the witness capture (the move of `c1move`'s
shape applied for C4's bookkeeping claim). -/
def c4res : Position := (Position.default.doMove c1move).getD Position.default

/-- Witness for C4 at the concrete capturing promotion 88x22+ from the
standard opening. -/
theorem c4_capture_bookkeeping_witness :
    Consistent Position.default ∧ moveOkB Position.default c1move = true ∧
    (∃ ptc, (Piece.piece Color.White PieceType.KA : Piece) =
        Piece.piece Position.default.sideToMove.not ptc ∧
      c4res.pieceOn c1move.toSq =
        (if c1move.isPromotion = true then (Position.default.pieceOn (mkSq 7 7)).promoted
         else Position.default.pieceOn (mkSq 7 7)) ∧
      c4res.piecesC Position.default.sideToMove.not c1move.toSq = false ∧
      c4res.occupied c1move.toSq = true ∧
      (c4res.hand Position.default.sideToMove).num ptc.demote =
        (Position.default.hand Position.default.sideToMove).num ptc.demote + 1) :=
  ⟨by decide, by decide,
    c4_capture_bookkeeping Position.default c1move (mkSq 7 7) (Piece.piece .White .KA)
      (by decide) (by decide) rfl rfl c4res rfl⟩

/-! ### C2: bitboard/array consistency -/

theorem consistent_of_fields {p q : Position} (hb : p.board = q.board) (hc : p.c_bb = q.c_bb)
    (hpt : p.pt_bb = q.pt_bb) (ho : p.occ_bb = q.occ_bb) (h : Consistent p) : Consistent q := by
  intro s
  obtain ⟨h1, h2, h3⟩ := h s
  refine ⟨fun c => ?_, fun pt => ?_, ?_⟩
  · rw [← hc, ← hb]; exact h1 c
  · rw [← hpt, ← hb]; exact h2 pt
  · rw [← ho, ← hb]; exact h3

/-- A freshly constructed position is consistent: `Position::new` builds
the bitboards directly from the layout. -/
theorem consistent_new (board : Square → Piece) (handNums : Color → PieceType → Nat)
    (stm : Color) : Consistent (Position.new board handNums stm) := by
  intro s
  exact ⟨fun c => rfl, fun pt => rfl, rfl⟩

/-- `xor_bbs` together with the matching board write keeps the redundant
index consistent: a single-square put (empty square gains the piece whose
color/type are toggled) or remove (that piece leaves, the square becomes
empty). -/
theorem consistent_toggle (pos : Position) (hcons : Consistent pos) (sq : Square)
    (c : Color) (pt : PieceType) (p : Piece)
    (hcase : (pos.board sq = .EMP ∧ p = .piece c pt) ∨ (pos.board sq = .piece c pt ∧ p = .EMP)) :
    Consistent { pos.xorBBs c pt sq with board := Function.update pos.board sq p } := by
  intro s
  obtain ⟨h1, h2, h3⟩ := hcons s
  obtain ⟨g1, g2, g3⟩ := hcons sq
  by_cases hs : s = sq
  · subst hs
    rcases hcase with ⟨hemp, hp⟩ | ⟨hpc, hp⟩ <;> subst hp <;>
      refine ⟨fun c' => ?_, fun pt' => ?_, ?_⟩ <;>
        dsimp only [Position.xorBBs] <;>
        simp only [Function.update_apply, Function.update_same] <;>
        [skip; skip; skip; skip; skip; skip]
    · by_cases hc' : c' = c
      · subst hc'
        simp [bbXorSq_app_self, h1, hemp, Piece.color]
      · simp [hc', bbXorSq_app_self, h1, hemp, Piece.color]
        exact fun h => hc' h.symm
    · by_cases hpt' : pt' = pt
      · subst hpt'
        simp [bbXorSq_app_self, h2, hemp, Piece.pieceType]
      · simp [hpt', bbXorSq_app_self, h2, hemp, Piece.pieceType]
        exact fun h => hpt' h.symm
    · simp [bbXorSq_app_self, h3, hemp, Piece.pieceType]
    · by_cases hc' : c' = c
      · subst hc'
        simp [bbXorSq_app_self, h1, hpc, Piece.color]
      · simp [hc', bbXorSq_app_self, h1, hpc, Piece.color]
        exact fun h => hc' h.symm
    · by_cases hpt' : pt' = pt
      · subst hpt'
        simp [bbXorSq_app_self, h2, hpc, Piece.pieceType]
      · simp [hpt', bbXorSq_app_self, h2, hpc, Piece.pieceType]
        exact fun h => hpt' h.symm
    · simp [bbXorSq_app_self, h3, hpc, Piece.pieceType]
  · refine ⟨fun c' => ?_, fun pt' => ?_, ?_⟩ <;>
      dsimp only [Position.xorBBs] <;>
      rw [Function.update_noteq hs]
    · by_cases hc' : c' = c
      · subst hc'
        rw [Function.update_same, bbXorSq_app_noteq _ _ _ hs]
        exact h1 c'
      · rw [Function.update_noteq hc']
        exact h1 c'
    · by_cases hpt' : pt' = pt
      · subst hpt'
        rw [Function.update_same, bbXorSq_app_noteq _ _ _ hs]
        exact h2 pt'
      · rw [Function.update_noteq hpt']
        exact h2 pt'
    · rw [bbXorSq_app_noteq _ _ _ hs]
      exact h3

/-- The capture pattern of `do_normal_move`: xor out the captured piece
and xor in the arriving piece on the same square, writing the board once. -/
theorem consistent_replace (pos : Position) (hcons : Consistent pos) (sq : Square)
    (c1 : Color) (pt1 : PieceType) (c2 : Color) (pt2 : PieceType)
    (hb : pos.board sq = .piece c2 pt2) :
    Consistent { (pos.xorBBs c2 pt2 sq).xorBBs c1 pt1 sq with
                 board := Function.update pos.board sq (.piece c1 pt1) } := by
  have h1 : Consistent { pos.xorBBs c2 pt2 sq with
      board := Function.update pos.board sq .EMP } :=
    consistent_toggle pos hcons sq c2 pt2 .EMP (Or.inr ⟨hb, rfl⟩)
  have h2 := consistent_toggle _ h1 sq c1 pt1 (.piece c1 pt1)
    (Or.inl ⟨by dsimp only; rw [Function.update_same], rfl⟩)
  refine consistent_of_fields ?_ ?_ ?_ ?_ h2
  · dsimp only
    rw [Function.update_idem]
  · rfl
  · rfl
  · rfl

theorem Position.doMove_consistent {pos : Position} {m : Move} {q : Position}
    (hok : moveOkB pos m = true) (h : pos.doMove m = some q) (hcons : Consistent pos) :
    Consistent q := by
  unfold moveOkB at hok
  cases hfm : m.fromOpt with
  | some f =>
    rw [hfm] at hok
    simp only [Bool.and_eq_true] at hok
    obtain ⟨⟨ha, hb⟩, hc⟩ := hok
    cases hbf : pos.board f with
    | EMP => rw [hbf] at ha; cases ha
    | piece c0 pt0 =>
      rw [hbf] at ha
      have hc0 : c0 = pos.color := by
        dsimp only at ha
        exact beq_iff_eq.mp ha
      subst hc0
      cases hcap : m.captured with
      | none =>
        rw [hcap] at hb
        have hto : pos.board m.toSq = Piece.EMP := by
          dsimp only at hb
          exact of_decide_eq_true hb
        have hne : m.toSq ≠ f := by
          intro he
          rw [he, hbf] at hto
          cases hto
        have heq := (doMove_normal_nocap_eq pos m f pt0 hfm hbf hcap hto hne).symm.trans h
        simp only [Option.some.injEq] at heq
        subst heq
        -- reduce to the two-toggle composite
        have h1 : Consistent { pos.xorBBs pos.color pt0 f with
            board := Function.update pos.board f .EMP } :=
          consistent_toggle pos hcons f pos.color pt0 .EMP (Or.inr ⟨hbf, rfl⟩)
        have h2 := consistent_toggle _ h1 m.toSq pos.color
          (if m.isPromotion = true then pt0.promote else pt0)
          (.piece pos.color (if m.isPromotion = true then pt0.promote else pt0))
          (Or.inl ⟨by dsimp only; rw [Function.update_noteq hne]; exact hto, rfl⟩)
        refine consistent_of_fields ?_ ?_ ?_ ?_ h2 <;>
          dsimp only [Position.xorBBs, afterNormalNoCapCore] <;>
          simp [Function.update_idem, Function.update_same]
      | some pCap =>
        rw [hcap] at hb
        simp only [Bool.and_eq_true] at hb
        obtain ⟨hb1, hb2⟩ := hb
        cases hpc : pCap with
        | EMP => rw [hpc] at hb2; cases hb2
        | piece cc ptc =>
          rw [hpc] at hb1 hb2
          have hcc : cc = pos.color.not := by
            dsimp only at hb2
            exact beq_iff_eq.mp hb2
          subst hcc
          have hto : pos.board m.toSq = Piece.piece pos.color.not ptc := of_decide_eq_true hb1
          have hne : m.toSq ≠ f := by
            intro he
            rw [he, hbf] at hto
            have : pos.color = pos.color.not := by injection hto with hx hy
            exact Color.ne_not pos.color this
          rw [hpc] at hcap
          have heq := (doMove_normal_cap_eq pos m f pt0 ptc hfm hbf hcap hto hne).symm.trans h
          simp only [Option.some.injEq] at heq
          subst heq
          have h1 : Consistent { pos.xorBBs pos.color pt0 f with
              board := Function.update pos.board f .EMP } :=
            consistent_toggle pos hcons f pos.color pt0 .EMP (Or.inr ⟨hbf, rfl⟩)
          have h2 := consistent_replace _ h1 m.toSq pos.color
            (if m.isPromotion = true then pt0.promote else pt0) pos.color.not ptc
            (by dsimp only; rw [Function.update_noteq hne]; exact hto)
          exact consistent_of_fields rfl rfl rfl rfl h2
  | none =>
    rw [hfm] at hok
    simp only [Bool.and_eq_true] at hok
    obtain ⟨⟨⟨hp1, hp2⟩, hp3⟩, hp4⟩ := hok
    cases hmp : m.piece with
    | EMP => rw [hmp] at hp1; cases hp1
    | piece cd ptd =>
      rw [hmp] at hp1
      simp only [Bool.and_eq_true] at hp1
      obtain ⟨⟨⟨hd1, hd2⟩, hd3⟩, hd4⟩ := hp1
      have hcd : cd = pos.color := beq_iff_eq.mp hd1
      subst hcd
      have hto : pos.board m.toSq = Piece.EMP := of_decide_eq_true hp2
      have heq := (doMove_drop_eq pos m ptd hfm hmp).symm.trans h
      simp only [Option.some.injEq] at heq
      subst heq
      have h1 := consistent_toggle pos hcons m.toSq pos.color ptd (.piece pos.color ptd)
        (Or.inl ⟨hto, rfl⟩)
      exact consistent_of_fields rfl rfl rfl rfl h1

theorem Position.undoMove_consistent {pos : Position} {m : Move} {q : Position}
    (hok : undoOkB pos m = true) (h : pos.undoMove m = some q) (hcons : Consistent pos) :
    Consistent q := by
  unfold undoOkB at hok
  unfold Position.undoMove at h
  dsimp only at h
  cases hf : m.fromOpt with
  | some f =>
    rw [hf] at h hok
    dsimp only at h
    simp only [Bool.and_eq_true] at hok
    obtain ⟨⟨⟨hne0, hfe⟩, hnef⟩, hcapok⟩ := hok
    have hfrom : pos.board f = .EMP := of_decide_eq_true hfe
    have hneq : f ≠ m.toSq := by simpa using hnef
    cases hbto : pos.board m.toSq with
    | EMP => rw [hbto] at hne0; simp at hne0
    | piece cx ptx =>
      dsimp only [Position.pieceOn] at h
      rw [hbto] at h
      dsimp only [Position.removePiece] at h
      cases hcap : m.captured with
      | some pCap =>
        rw [hcap] at h hcapok
        cases hpcap : pCap with
        | EMP => rw [hpcap] at hcapok; cases hcapok
        | piece cc ptcp =>
          rw [hpcap] at h
          dsimp only [Position.putPiece, Piece.pieceType] at h
          have hpF : (if m.isPromotion = true then (Piece.piece cx ptx).demoted
              else Piece.piece cx ptx) =
              Piece.piece cx (if m.isPromotion = true then ptx.demote else ptx) := by
            cases m.isPromotion <;> rfl
          rw [hpF] at h
          dsimp only [Position.putPiece] at h
          simp only [Option.some.injEq] at h
          subst h
          have t1 : Consistent { pos.xorBBs cx ptx m.toSq with
              board := Function.update pos.board m.toSq .EMP } :=
            consistent_toggle pos hcons m.toSq cx ptx .EMP (Or.inr ⟨hbto, rfl⟩)
          have t2 := consistent_toggle _ t1 m.toSq cc ptcp (.piece cc ptcp)
            (Or.inl ⟨by dsimp only; rw [Function.update_same], rfl⟩)
          have t3 : Consistent
              { ({ pos.xorBBs cx ptx m.toSq with
                   board := Function.update pos.board m.toSq .EMP }).xorBBs cc ptcp m.toSq with
                board := Function.update
                  (Function.update pos.board m.toSq Piece.EMP) m.toSq (.piece cc ptcp) } :=
            consistent_of_fields rfl rfl rfl rfl t2
          have t4 := consistent_toggle _ t3 f cx
            (if m.isPromotion = true then ptx.demote else ptx)
            (.piece cx (if m.isPromotion = true then ptx.demote else ptx))
            (Or.inl ⟨by
              dsimp only
              rw [Function.update_noteq hneq, Function.update_noteq hneq]
              exact hfrom, rfl⟩)
          exact consistent_of_fields rfl rfl rfl rfl t4
      | none =>
        rw [hcap] at h
        dsimp only at h
        have hpF : (if m.isPromotion = true then (Piece.piece cx ptx).demoted
            else Piece.piece cx ptx) =
            Piece.piece cx (if m.isPromotion = true then ptx.demote else ptx) := by
          cases m.isPromotion <;> rfl
        rw [hpF] at h
        dsimp only [Position.putPiece] at h
        simp only [Option.some.injEq] at h
        subst h
        have t1 : Consistent { pos.xorBBs cx ptx m.toSq with
            board := Function.update pos.board m.toSq .EMP } :=
          consistent_toggle pos hcons m.toSq cx ptx .EMP (Or.inr ⟨hbto, rfl⟩)
        have t4 := consistent_toggle _ t1 f cx
          (if m.isPromotion = true then ptx.demote else ptx)
          (.piece cx (if m.isPromotion = true then ptx.demote else ptx))
          (Or.inl ⟨by
            dsimp only
            rw [Function.update_noteq hneq]
            exact hfrom, rfl⟩)
        exact consistent_of_fields rfl rfl rfl rfl t4
  | none =>
    rw [hf] at h hok
    dsimp only at h
    cases hbto : pos.board m.toSq with
    | EMP => rw [hbto] at hok; simp at hok
    | piece cx ptx =>
      dsimp only [Position.pieceOn] at h
      rw [hbto] at h
      dsimp only [Position.removePiece, Piece.pieceType] at h
      simp only [Option.some.injEq] at h
      subst h
      have t1 : Consistent { pos.xorBBs cx ptx m.toSq with
          board := Function.update pos.board m.toSq .EMP } :=
        consistent_toggle pos hcons m.toSq cx ptx .EMP (Or.inr ⟨hbto, rfl⟩)
      exact consistent_of_fields rfl rfl rfl rfl t1

theorem okRun_consistent : ∀ (ops : List Op) (pos pos' : Position),
    okRun pos ops = true → applyOps pos ops = some pos' → Consistent pos →
    Consistent pos' := by
  intro ops
  induction ops with
  | nil =>
    intro pos pos' hok happ hcons
    simp only [applyOps, Option.some.injEq] at happ
    subst happ
    exact hcons
  | cons op ops ih =>
    intro pos pos' hok happ hcons
    unfold okRun at hok
    unfold applyOps at happ
    cases hstep : applyOp pos op with
    | none => rw [hstep] at happ; cases happ
    | some posMid =>
      rw [hstep] at happ hok
      dsimp only at happ hok
      simp only [Bool.and_eq_true] at hok
      obtain ⟨hop, hrest⟩ := hok
      have hconsMid : Consistent posMid := by
        cases op with
        | doM mv => exact Position.doMove_consistent hop hstep hcons
        | undoM mv => exact Position.undoMove_consistent hop hstep hcons
      exact ih posMid pos' hrest happ hconsMid

/-- **C2.** For every Position built by `Position::new` and every sequence
of `do_move`/`undo_move` applications whose moves are consistent with the
position they are applied to (as the generator/LIFO contract guarantees),
every square satisfies exactly the claimed dichotomy: an empty square sits
in no color bitboard, no piece-type bitboard, and not in OCCUPIED; a
square holding a piece of color `c` and type `pt` sits in exactly color
bitboard `c`, exactly type bitboard `pt`, and in OCCUPIED. -/
theorem c2_bitboard_array_consistency (board0 : Square → Piece)
    (handNums : Color → PieceType → Nat) (stm : Color) (ops : List Op) (pos' : Position)
    (hok : okRun (Position.new board0 handNums stm) ops = true)
    (happ : applyOps (Position.new board0 handNums stm) ops = some pos') :
    ∀ sq, (pos'.pieceOn sq = .EMP ∧ (∀ c, pos'.piecesC c sq = false) ∧
            (∀ pt, pos'.piecesP pt sq = false) ∧ pos'.occupied sq = false) ∨
          (∃ c pt, pos'.pieceOn sq = .piece c pt ∧
            (∀ c', pos'.piecesC c' sq = decide (c' = c)) ∧
            (∀ pt', pos'.piecesP pt' sq = decide (pt' = pt)) ∧
            pos'.occupied sq = true) := by
  have hcons : Consistent pos' :=
    okRun_consistent ops _ pos' hok happ (consistent_new board0 handNums stm)
  intro sq
  obtain ⟨h1, h2, h3⟩ := hcons sq
  cases hb : pos'.board sq with
  | EMP =>
    left
    refine ⟨hb, fun c => ?_, fun pt => ?_, ?_⟩
    · show pos'.c_bb c sq = false
      rw [h1 c, hb]; rfl
    · show pos'.pt_bb pt sq = false
      rw [h2 pt, hb]; rfl
    · show pos'.occ_bb sq = false
      rw [h3, hb]; rfl
  | piece c pt =>
    right
    refine ⟨c, pt, hb, fun c' => ?_, fun pt' => ?_, ?_⟩
    · show pos'.c_bb c' sq = decide (c' = c)
      rw [h1 c', hb]
      simp [Piece.color, eq_comm]
    · show pos'.pt_bb pt' sq = decide (pt' = pt)
      rw [h2 pt', hb]
      simp [Piece.pieceType, eq_comm]
    · show pos'.occ_bb sq = true
      rw [h3, hb]; rfl

/-- Witness ops for C2: the capturing promotion followed by its undo, from
the standard opening. -/
def c2ops : List Op := [.doM c1move, .undoM c1move]

/-- The concrete result of the witness sequence for C2. -/
def c2res : Position := (applyOps Position.default c2ops).getD Position.default

/-- Witness for C2 at a concrete do/undo sequence. -/
theorem c2_bitboard_array_consistency_witness :
    okRun Position.default c2ops = true ∧
    ((c2res.pieceOn (mkSq 1 1) = .EMP ∧ (∀ c, c2res.piecesC c (mkSq 1 1) = false) ∧
        (∀ pt, c2res.piecesP pt (mkSq 1 1) = false) ∧ c2res.occupied (mkSq 1 1) = false) ∨
      (∃ c pt, c2res.pieceOn (mkSq 1 1) = .piece c pt ∧
        (∀ c', c2res.piecesC c' (mkSq 1 1) = decide (c' = c)) ∧
        (∀ pt', c2res.piecesP pt' (mkSq 1 1) = decide (pt' = pt)) ∧
        c2res.occupied (mkSq 1 1) = true)) :=
  ⟨by decide,
    c2_bitboard_array_consistency defaultBoard (fun _ _ => 0) .Black c2ops c2res
      (by decide) rfl (mkSq 1 1)⟩

/-! ### C7: conservation of piece counts -/

/-- The position after undoing a non-capturing normal move whose
destination held the piece `(cx, ptx)` (proof-layer shorthand). -/
def undoNormalNoCapRec (pos : Position) (m : Move) (f : Square) (cx : Color)
    (ptx : PieceType) : Position :=
  let ptIfx := if m.isPromotion = true then ptx.demote else ptx
  let cbbA := Function.update pos.c_bb cx (bbXorSq (pos.c_bb cx) m.toSq)
  let ptA := Function.update pos.pt_bb ptx (bbXorSq (pos.pt_bb ptx) m.toSq)
  { board := Function.update (Function.update pos.board m.toSq .EMP) f (.piece cx ptIfx)
    hands := pos.hands
    color := pos.color.not
    c_bb := Function.update cbbA cx (bbXorSq (cbbA cx) f)
    pt_bb := Function.update ptA ptIfx (bbXorSq (ptA ptIfx) f)
    occ_bb := bbXorSq (bbXorSq pos.occ_bb m.toSq) f
    states := pos.states.tail }

theorem undoMove_normal_nocap_rec_eq (pos : Position) (m : Move) (f : Square) (cx : Color)
    (ptx : PieceType)
    (hf : m.fromOpt = some f)
    (hcap : m.captured = none)
    (hbto : pos.board m.toSq = .piece cx ptx) :
    pos.undoMove m = some (undoNormalNoCapRec pos m f cx ptx) := by
  have hpF : (if m.isPromotion = true then (Piece.piece cx ptx).demoted
      else Piece.piece cx ptx) =
      Piece.piece cx (if m.isPromotion = true then ptx.demote else ptx) := by
    cases m.isPromotion <;> rfl
  unfold Position.undoMove
  rw [hf, hcap]
  dsimp only [Position.pieceOn, Position.sideToMove]
  rw [hbto]
  dsimp only [Position.removePiece, Position.xorBBs]
  rw [hpF]
  dsimp only [Position.putPiece, Position.xorBBs]
  rfl

/-- The position after undoing a capturing normal move whose destination
held `(cx, ptx)` with recorded capture `(cc, ptcp)` (proof-layer
shorthand). -/
def undoNormalCapRec (pos : Position) (m : Move) (f : Square) (cx : Color) (ptx : PieceType)
    (cc : Color) (ptcp : PieceType) : Position :=
  let ptIfx := if m.isPromotion = true then ptx.demote else ptx
  let cbbA := Function.update pos.c_bb cx (bbXorSq (pos.c_bb cx) m.toSq)
  let cbbB := Function.update cbbA cc (bbXorSq (cbbA cc) m.toSq)
  let ptA := Function.update pos.pt_bb ptx (bbXorSq (pos.pt_bb ptx) m.toSq)
  let ptB := Function.update ptA ptcp (bbXorSq (ptA ptcp) m.toSq)
  { board := Function.update (Function.update (Function.update pos.board m.toSq .EMP) m.toSq
      (.piece cc ptcp)) f (.piece cx ptIfx)
    hands := Function.update pos.hands pos.color.not
      ((pos.hands pos.color.not).decrement ptcp)
    color := pos.color.not
    c_bb := Function.update cbbB cx (bbXorSq (cbbB cx) f)
    pt_bb := Function.update ptB ptIfx (bbXorSq (ptB ptIfx) f)
    occ_bb := bbXorSq (bbXorSq (bbXorSq pos.occ_bb m.toSq) m.toSq) f
    states := pos.states.tail }

theorem undoMove_normal_cap_rec_eq (pos : Position) (m : Move) (f : Square) (cx : Color)
    (ptx : PieceType) (cc : Color) (ptcp : PieceType)
    (hf : m.fromOpt = some f)
    (hcap : m.captured = some (.piece cc ptcp))
    (hbto : pos.board m.toSq = .piece cx ptx) :
    pos.undoMove m = some (undoNormalCapRec pos m f cx ptx cc ptcp) := by
  have hpF : (if m.isPromotion = true then (Piece.piece cx ptx).demoted
      else Piece.piece cx ptx) =
      Piece.piece cx (if m.isPromotion = true then ptx.demote else ptx) := by
    cases m.isPromotion <;> rfl
  unfold Position.undoMove
  rw [hf, hcap]
  dsimp only [Position.pieceOn, Position.sideToMove]
  rw [hbto]
  dsimp only [Position.removePiece, Position.xorBBs]
  dsimp only [Position.putPiece, Position.xorBBs, Piece.pieceType]
  rw [hpF]
  dsimp only [Position.putPiece, Position.xorBBs]
  rfl

/-- The position after undoing a drop whose destination held `(cx, ptx)`
(proof-layer shorthand). -/
def undoDropRec (pos : Position) (m : Move) (cx : Color) (ptx : PieceType) : Position :=
  { board := Function.update pos.board m.toSq .EMP
    hands := Function.update pos.hands pos.color.not
      ((pos.hands pos.color.not).increment ptx)
    color := pos.color.not
    c_bb := Function.update pos.c_bb cx (bbXorSq (pos.c_bb cx) m.toSq)
    pt_bb := Function.update pos.pt_bb ptx (bbXorSq (pos.pt_bb ptx) m.toSq)
    occ_bb := bbXorSq pos.occ_bb m.toSq
    states := pos.states.tail }

theorem undoMove_drop_rec_eq (pos : Position) (m : Move) (cx : Color) (ptx : PieceType)
    (hf : m.fromOpt = none)
    (hbto : pos.board m.toSq = .piece cx ptx) :
    pos.undoMove m = some (undoDropRec pos m cx ptx) := by
  unfold Position.undoMove
  rw [hf]
  dsimp only [Position.pieceOn, Position.sideToMove]
  rw [hbto]
  dsimp only [Position.removePiece, Position.xorBBs, Piece.pieceType]
  rfl

theorem countP_update_list {β : Type} (l : List Square) (hnd : l.Nodup) (f : Square → β)
    (a : Square) (ha : a ∈ l) (v : β) (p : β → Bool) :
    l.countP (fun s => p (Function.update f a v s)) + (if p (f a) then 1 else 0) =
      l.countP (fun s => p (f s)) + (if p v then 1 else 0) := by
  induction l with
  | nil => cases ha
  | cons hd tl ih =>
    rw [List.countP_cons, List.countP_cons]
    rcases List.mem_cons.mp ha with heq | hmem
    · subst heq
      have hnotmem : a ∉ tl := (List.nodup_cons.mp hnd).1
      have hcong : tl.countP (fun s => p (Function.update f a v s)) =
          tl.countP (fun s => p (f s)) := by
        apply List.countP_congr
        intro s hs
        have hne : s ≠ a := fun he => hnotmem (he ▸ hs)
        rw [Function.update_noteq hne]
      rw [hcong, Function.update_same]
      split_ifs <;> omega
    · have hne : hd ≠ a := fun he => ((List.nodup_cons.mp hnd).1 (he ▸ hmem))
      have := ih (List.nodup_cons.mp hnd).2 hmem
      rw [Function.update_noteq hne]
      split_ifs at this ⊢ <;> omega

theorem countP_update_sq {β : Type} (f : Square → β) (a : Square) (v : β) (p : β → Bool) :
    squareList.countP (fun s => p (Function.update f a v s)) + (if p (f a) then 1 else 0) =
      squareList.countP (fun s => p (f s)) + (if p v then 1 else 0) :=
  countP_update_list squareList squareList_nodup f a (mem_squareList a) v p

/-- Does the piece exist and demote to base type `t`? -/
def pieceHasBase (t : PieceType) : Piece → Bool := fun p =>
  match p with
  | .piece _ pt => pt.demote == t
  | .EMP => false

theorem boardCount_eq (pos : Position) (t : PieceType) :
    boardCount pos t = squareList.countP fun s => pieceHasBase t (pos.board s) := rfl

theorem Hand.num_increment (h : Hand) (pt t : PieceType) :
    (h.increment pt).num t = h.num t + (if t.demote = pt.demote then 1 else 0) := by
  unfold Hand.increment Hand.num
  by_cases hq : t.demote = pt.demote
  · rw [hq, Function.update_same, if_pos rfl]
  · rw [Function.update_noteq hq, if_neg hq]
    omega

theorem Hand.num_decrement (h : Hand) (pt t : PieceType) (hpos : 0 < h pt.demote) :
    (h.decrement pt).num t + (if t.demote = pt.demote then 1 else 0) = h.num t := by
  unfold Hand.decrement Hand.num
  by_cases hq : t.demote = pt.demote
  · rw [hq, Function.update_same, if_pos rfl]
    omega
  · rw [Function.update_noteq hq, if_neg hq]
    omega

theorem handsSum_update (hands : Color → Hand) (c0 : Color) (h' : Hand) (t : PieceType) :
    (Function.update hands c0 h' .Black).num t + (Function.update hands c0 h' .White).num t
      + (hands c0).num t
      = (hands .Black).num t + (hands .White).num t + h'.num t := by
  cases c0 <;>
    simp only [Function.update_same,
      Function.update_noteq (by decide : (Color.White : Color) ≠ .Black),
      Function.update_noteq (by decide : (Color.Black : Color) ≠ .White)] <;>
    omega

theorem promotableB_demote (pt : PieceType) (h : promotableB pt = true) : pt.demote = pt := by
  revert h
  cases pt <;> decide

theorem pieceHasBase_emp (t : PieceType) : pieceHasBase t .EMP = false := rfl

theorem pieceHasBase_piece (t : PieceType) (c : Color) (pt : PieceType) :
    pieceHasBase t (.piece c pt) = (pt.demote == t) := rfl

theorem Position.doMove_total {pos : Position} {m : Move} {q : Position}
    (hok : moveOkB pos m = true) (h : pos.doMove m = some q) :
    ∀ t, t.demote = t → totalCount q t = totalCount pos t := by
  unfold moveOkB at hok
  cases hfm : m.fromOpt with
  | some f =>
    rw [hfm] at hok
    simp only [Bool.and_eq_true] at hok
    obtain ⟨⟨ha, hb⟩, hc⟩ := hok
    cases hbf : pos.board f with
    | EMP => rw [hbf] at ha; cases ha
    | piece c0 pt0 =>
      rw [hbf] at ha hc
      have hc0 : c0 = pos.color := by
        dsimp only at ha
        exact beq_iff_eq.mp ha
      subst hc0
      have hdem : (if m.isPromotion = true then pt0.promote else pt0).demote = pt0.demote := by
        cases hpm : m.isPromotion
        · rfl
        · rw [hpm] at hc
          dsimp only [Piece.pieceType, Bool.not_true, Bool.false_or] at hc
          show pt0.promote.demote = pt0.demote
          rw [promotableB_demote_promote pt0 hc, promotableB_demote pt0 hc]
      cases hcap : m.captured with
      | none =>
        rw [hcap] at hb
        have hto : pos.board m.toSq = Piece.EMP := by
          dsimp only at hb
          exact of_decide_eq_true hb
        have hne : m.toSq ≠ f := by
          intro he
          rw [he, hbf] at hto
          cases hto
        have heq := (doMove_normal_nocap_eq pos m f pt0 hfm hbf hcap hto hne).symm.trans h
        simp only [Option.some.injEq] at heq
        subst heq
        intro t ht
        show boardCount _ t + (pos.hands .Black).num t + (pos.hands .White).num t =
          boardCount pos t + (pos.hands .Black).num t + (pos.hands .White).num t
        have hbrd : (afterNormalNoCapCore pos m f pt0).board =
            Function.update (Function.update pos.board f .EMP) m.toSq
              (.piece pos.color (if m.isPromotion = true then pt0.promote else pt0)) := rfl
        rw [boardCount_eq, boardCount_eq, hbrd]
        have e1 := countP_update_sq (Function.update pos.board f .EMP) m.toSq
          (.piece pos.color (if m.isPromotion = true then pt0.promote else pt0))
          (pieceHasBase t)
        have e2 := countP_update_sq pos.board f .EMP (pieceHasBase t)
        rw [Function.update_noteq hne, hto] at e1
        rw [hbf] at e2
        have hval : pieceHasBase t
            (.piece pos.color (if m.isPromotion = true then pt0.promote else pt0)) =
            pieceHasBase t (.piece pos.color pt0) := by
          dsimp only [pieceHasBase]
          rw [hdem]
        rw [hval] at e1
        simp only [pieceHasBase_emp, pieceHasBase_piece, beq_iff_eq,
          Bool.false_eq_true, if_false] at e1 e2
        split_ifs at e1 e2 ⊢ <;> omega
      | some pCap =>
        rw [hcap] at hb
        simp only [Bool.and_eq_true] at hb
        obtain ⟨hb1, hb2⟩ := hb
        cases hpc : pCap with
        | EMP => rw [hpc] at hb2; cases hb2
        | piece cc ptc =>
          rw [hpc] at hb1 hb2
          have hcc : cc = pos.color.not := by
            dsimp only at hb2
            exact beq_iff_eq.mp hb2
          subst hcc
          have hto : pos.board m.toSq = Piece.piece pos.color.not ptc := of_decide_eq_true hb1
          have hne : m.toSq ≠ f := by
            intro he
            rw [he, hbf] at hto
            have hx : pos.color = pos.color.not := by injection hto with h1 h2
            exact Color.ne_not pos.color hx
          rw [hpc] at hcap
          have heq := (doMove_normal_cap_eq pos m f pt0 ptc hfm hbf hcap hto hne).symm.trans h
          simp only [Option.some.injEq] at heq
          subst heq
          intro t ht
          show boardCount _ t +
            (Function.update pos.hands pos.color ((pos.hands pos.color).increment ptc)
              .Black).num t +
            (Function.update pos.hands pos.color ((pos.hands pos.color).increment ptc)
              .White).num t =
            boardCount pos t + (pos.hands .Black).num t + (pos.hands .White).num t
          have hbrd : (afterNormalCapCore pos m f pt0 ptc).board =
              Function.update (Function.update pos.board f .EMP) m.toSq
                (.piece pos.color (if m.isPromotion = true then pt0.promote else pt0)) := rfl
          rw [boardCount_eq, boardCount_eq, hbrd]
          have e1 := countP_update_sq (Function.update pos.board f .EMP) m.toSq
            (.piece pos.color (if m.isPromotion = true then pt0.promote else pt0))
            (pieceHasBase t)
          have e2 := countP_update_sq pos.board f .EMP (pieceHasBase t)
          rw [Function.update_noteq hne, hto] at e1
          rw [hbf] at e2
          have hval : pieceHasBase t
              (.piece pos.color (if m.isPromotion = true then pt0.promote else pt0)) =
              pieceHasBase t (.piece pos.color pt0) := by
            dsimp only [pieceHasBase]
            rw [hdem]
          rw [hval] at e1
          have e3 := handsSum_update pos.hands pos.color
            ((pos.hands pos.color).increment ptc) t
          have e4 := Hand.num_increment (pos.hands pos.color) ptc t
          rw [e4] at e3
          have hiff : (t.demote = ptc.demote) = (ptc.demote = t) := by
            rw [ht]; exact propext eq_comm
          simp only [pieceHasBase_emp, pieceHasBase_piece, beq_iff_eq,
            Bool.false_eq_true, if_false] at e1 e2
          simp only [hiff] at e3
          split_ifs at e1 e2 e3 ⊢ <;> omega
  | none =>
    rw [hfm] at hok
    simp only [Bool.and_eq_true] at hok
    obtain ⟨⟨⟨hp1, hp2⟩, hp3⟩, hp4⟩ := hok
    cases hmp : m.piece with
    | EMP => rw [hmp] at hp1; cases hp1
    | piece cd ptd =>
      rw [hmp] at hp1
      simp only [Bool.and_eq_true] at hp1
      obtain ⟨⟨⟨hd1, hd2⟩, hd3⟩, hd4⟩ := hp1
      have hcd : cd = pos.color := beq_iff_eq.mp hd1
      subst hcd
      have hto : pos.board m.toSq = Piece.EMP := of_decide_eq_true hp2
      have hcnt : 0 < pos.hands pos.color ptd.demote := of_decide_eq_true hd4
      have heq := (doMove_drop_eq pos m ptd hfm hmp).symm.trans h
      simp only [Option.some.injEq] at heq
      subst heq
      intro t ht
      show boardCount _ t +
        (Function.update pos.hands pos.color ((pos.hands pos.color).decrement ptd)
          .Black).num t +
        (Function.update pos.hands pos.color ((pos.hands pos.color).decrement ptd)
          .White).num t =
        boardCount pos t + (pos.hands .Black).num t + (pos.hands .White).num t
      have hbrd : (afterDropCore pos m ptd).board =
          Function.update pos.board m.toSq (.piece pos.color ptd) := rfl
      rw [boardCount_eq, boardCount_eq, hbrd]
      have e1 := countP_update_sq pos.board m.toSq (.piece pos.color ptd) (pieceHasBase t)
      rw [hto] at e1
      have e3 := handsSum_update pos.hands pos.color
        ((pos.hands pos.color).decrement ptd) t
      have e4 := Hand.num_decrement (pos.hands pos.color) ptd t hcnt
      have hiff : (t.demote = ptd.demote) = (ptd.demote = t) := by
        rw [ht]; exact propext eq_comm
      simp only [pieceHasBase_emp, pieceHasBase_piece, beq_iff_eq,
        Bool.false_eq_true, if_false] at e1
      simp only [hiff] at e4
      split_ifs at e1 e3 e4 ⊢ <;> omega

theorem Position.undoMove_total {pos : Position} {m : Move} {q : Position}
    (hok : undoOkB pos m = true) (h : pos.undoMove m = some q) :
    ∀ t, t.demote = t → totalCount q t = totalCount pos t := by
  unfold undoOkB at hok
  cases hfm : m.fromOpt with
  | some f =>
    rw [hfm] at hok
    simp only [Bool.and_eq_true] at hok
    obtain ⟨⟨⟨hA, hB⟩, hC⟩, hD⟩ := hok
    cases hbto : pos.board m.toSq with
    | EMP => rw [hbto] at hA; simp at hA
    | piece cx ptx =>
      have hne : f ≠ m.toSq := by simpa using hC
      have hBf : pos.board f = Piece.EMP := of_decide_eq_true hB
      have hdem : (if m.isPromotion = true then ptx.demote else ptx).demote = ptx.demote := by
        cases m.isPromotion
        · rfl
        · exact PieceType.demote_demote ptx
      cases hcap : m.captured with
      | none =>
        have heq := (undoMove_normal_nocap_rec_eq pos m f cx ptx hfm hcap hbto).symm.trans h
        simp only [Option.some.injEq] at heq
        subst heq
        intro t ht
        show boardCount _ t + (pos.hands .Black).num t + (pos.hands .White).num t =
          boardCount pos t + (pos.hands .Black).num t + (pos.hands .White).num t
        have hbrd : (undoNormalNoCapRec pos m f cx ptx).board =
            Function.update (Function.update pos.board m.toSq .EMP) f
              (.piece cx (if m.isPromotion = true then ptx.demote else ptx)) := rfl
        rw [boardCount_eq, boardCount_eq, hbrd]
        have e1 := countP_update_sq (Function.update pos.board m.toSq .EMP) f
          (.piece cx (if m.isPromotion = true then ptx.demote else ptx)) (pieceHasBase t)
        have e2 := countP_update_sq pos.board m.toSq .EMP (pieceHasBase t)
        rw [Function.update_noteq hne, hBf] at e1
        rw [hbto] at e2
        have hval : pieceHasBase t
            (.piece cx (if m.isPromotion = true then ptx.demote else ptx)) =
            pieceHasBase t (.piece cx ptx) := by
          dsimp only [pieceHasBase]
          rw [hdem]
        rw [hval] at e1
        simp only [pieceHasBase_emp, pieceHasBase_piece, beq_iff_eq,
          Bool.false_eq_true, if_false] at e1 e2
        split_ifs at e1 e2 ⊢ <;> omega
      | some pCap =>
        rw [hcap] at hD
        cases hpc : pCap with
        | EMP => rw [hpc] at hD; cases hD
        | piece cc ptcp =>
          rw [hpc] at hD
          have hcnt : 0 < pos.hands pos.color.not ptcp.demote := of_decide_eq_true hD
          rw [hpc] at hcap
          have heq := (undoMove_normal_cap_rec_eq pos m f cx ptx cc ptcp hfm hcap
            hbto).symm.trans h
          simp only [Option.some.injEq] at heq
          subst heq
          intro t ht
          show boardCount _ t +
            (Function.update pos.hands pos.color.not
              ((pos.hands pos.color.not).decrement ptcp) .Black).num t +
            (Function.update pos.hands pos.color.not
              ((pos.hands pos.color.not).decrement ptcp) .White).num t =
            boardCount pos t + (pos.hands .Black).num t + (pos.hands .White).num t
          have hbrd : (undoNormalCapRec pos m f cx ptx cc ptcp).board =
              Function.update (Function.update (Function.update pos.board m.toSq .EMP)
                m.toSq (.piece cc ptcp)) f
                (.piece cx (if m.isPromotion = true then ptx.demote else ptx)) := rfl
          rw [boardCount_eq, boardCount_eq, hbrd]
          have e1 := countP_update_sq
            (Function.update (Function.update pos.board m.toSq .EMP) m.toSq (.piece cc ptcp))
            f (.piece cx (if m.isPromotion = true then ptx.demote else ptx)) (pieceHasBase t)
          have e2 := countP_update_sq (Function.update pos.board m.toSq .EMP) m.toSq
            (.piece cc ptcp) (pieceHasBase t)
          have e3 := countP_update_sq pos.board m.toSq .EMP (pieceHasBase t)
          rw [Function.update_noteq hne, Function.update_noteq hne, hBf] at e1
          rw [Function.update_same] at e2
          rw [hbto] at e3
          have hval : pieceHasBase t
              (.piece cx (if m.isPromotion = true then ptx.demote else ptx)) =
              pieceHasBase t (.piece cx ptx) := by
            dsimp only [pieceHasBase]
            rw [hdem]
          rw [hval] at e1
          have e5 := handsSum_update pos.hands pos.color.not
            ((pos.hands pos.color.not).decrement ptcp) t
          have e6 := Hand.num_decrement (pos.hands pos.color.not) ptcp t hcnt
          have hiff : (t.demote = ptcp.demote) = (ptcp.demote = t) := by
            rw [ht]; exact propext eq_comm
          simp only [pieceHasBase_emp, pieceHasBase_piece, beq_iff_eq,
            Bool.false_eq_true, if_false] at e1 e2 e3
          simp only [hiff] at e6
          split_ifs at e1 e2 e3 e6 ⊢ <;> omega
  | none =>
    rw [hfm] at hok
    cases hbto : pos.board m.toSq with
    | EMP => rw [hbto] at hok; simp at hok
    | piece cx ptx =>
      have heq := (undoMove_drop_rec_eq pos m cx ptx hfm hbto).symm.trans h
      simp only [Option.some.injEq] at heq
      subst heq
      intro t ht
      show boardCount _ t +
        (Function.update pos.hands pos.color.not
          ((pos.hands pos.color.not).increment ptx) .Black).num t +
        (Function.update pos.hands pos.color.not
          ((pos.hands pos.color.not).increment ptx) .White).num t =
        boardCount pos t + (pos.hands .Black).num t + (pos.hands .White).num t
      have hbrd : (undoDropRec pos m cx ptx).board =
          Function.update pos.board m.toSq .EMP := rfl
      rw [boardCount_eq, boardCount_eq, hbrd]
      have e1 := countP_update_sq pos.board m.toSq .EMP (pieceHasBase t)
      rw [hbto] at e1
      have e5 := handsSum_update pos.hands pos.color.not
        ((pos.hands pos.color.not).increment ptx) t
      have e6 := Hand.num_increment (pos.hands pos.color.not) ptx t
      have hiff : (t.demote = ptx.demote) = (ptx.demote = t) := by
        rw [ht]; exact propext eq_comm
      simp only [pieceHasBase_emp, pieceHasBase_piece, beq_iff_eq,
        Bool.false_eq_true, if_false] at e1
      simp only [hiff] at e6
      split_ifs at e1 e6 ⊢ <;> omega

/-- Every precondition-respecting run of do/undo operations preserves each
base type's total count. -/
theorem okRun_total : ∀ (ops : List Op) (pos pos' : Position),
    okRun pos ops = true → applyOps pos ops = some pos' →
    ∀ t, t.demote = t → totalCount pos' t = totalCount pos t := by
  intro ops
  induction ops with
  | nil =>
    intro pos pos' hok happ t ht
    simp only [applyOps, Option.some.injEq] at happ
    subst happ
    rfl
  | cons op ops ih =>
    intro pos pos' hok happ t ht
    unfold okRun at hok
    unfold applyOps at happ
    cases hstep : applyOp pos op with
    | none => rw [hstep] at happ; cases happ
    | some posMid =>
      rw [hstep] at happ hok
      dsimp only at happ hok
      simp only [Bool.and_eq_true] at hok
      obtain ⟨hop, hrest⟩ := hok
      have hmid : totalCount posMid t = totalCount pos t := by
        cases op with
        | doM mv => exact Position.doMove_total hop hstep t ht
        | undoM mv => exact Position.undoMove_total hop hstep t ht
      rw [ih posMid pos' hrest happ t ht, hmid]

/-- **C7.** For every Position built by `Position::new` and every
precondition-respecting sequence of `do_move`/`undo_move` applications
(the generator/LIFO contract), and for every base piece type `t`, the
total count of `t` — on-board pieces whose demoted type is `t`, summed
over both colors with promoted variants collapsed to their base type,
plus both hands' counts for `t` — is exactly what it was at
construction. -/
theorem c7_conservation (board0 : Square → Piece)
    (handNums : Color → PieceType → Nat) (stm : Color) (ops : List Op) (pos' : Position)
    (hok : okRun (Position.new board0 handNums stm) ops = true)
    (happ : applyOps (Position.new board0 handNums stm) ops = some pos') :
    ∀ t, t.demote = t →
      totalCount pos' t = totalCount (Position.new board0 handNums stm) t :=
  okRun_total ops (Position.new board0 handNums stm) pos' hok happ

/-- Witness ops for C7: a capturing promotion (board piece becomes a hand
piece of its base type) followed by its undo, from the standard opening. -/
def c7ops : List Op := [.doM c1move, .undoM c1move]

/-- The concrete result of the witness sequence for C7. -/
def c7res : Position := (applyOps Position.default c7ops).getD Position.default

/-- Witness for C7: pawn count after the witness sequence. -/
theorem c7_conservation_witness :
    (okRun Position.default c7ops = true ∧ PieceType.FU.demote = PieceType.FU) ∧
    totalCount c7res PieceType.FU = totalCount Position.default PieceType.FU :=
  ⟨⟨by decide, by decide⟩,
    c7_conservation defaultBoard (fun _ _ => 0) .Black c7ops c7res
      (by decide) rfl PieceType.FU (by decide)⟩

/-! ### C6: semantics of `attackers_to` -/

/-- Negate both components of a step offset. -/
def dneg (d : Int × Int) : Int × Int := (-d.1, -d.2)

theorem dneg_dneg (d : Int × Int) : dneg (dneg d) = d := by
  obtain ⟨d1, d2⟩ := d
  simp [dneg]

/-- Coordinate characterization of `shift`. -/
theorem shift_eq_some (s u : Square) (d : Int × Int) :
    shift s d = some u ↔
      ((u.file : Int) = s.file + d.1 ∧ (u.rank : Int) = s.rank + d.2) := by
  have hufl := u.file.isLt
  have hurl := u.rank.isLt
  unfold shift
  by_cases h : 0 ≤ (s.file : Int) + d.1 ∧ (s.file : Int) + d.1 < 9 ∧
      0 ≤ (s.rank : Int) + d.2 ∧ (s.rank : Int) + d.2 < 9
  · rw [dif_pos h]
    simp only [Option.some.injEq]
    constructor
    · rintro rfl
      constructor <;> simp <;> omega
    · rintro ⟨h1, h2⟩
      obtain ⟨uf, ur⟩ := u
      simp only [Square.mk.injEq]
      constructor <;> apply Fin.ext <;> simp at h1 h2 ⊢ <;> omega
  · rw [dif_neg h]
    constructor
    · intro hx; cases hx
    · rintro ⟨h1, h2⟩
      exact absurd ⟨by omega, by omega, by omega, by omega⟩ h

/-- `shift` is reversible: stepping back with the negated offset returns
to the origin. -/
theorem shift_inv {s u : Square} {d : Int × Int} (h : shift s d = some u) :
    shift u (dneg d) = some s := by
  rw [shift_eq_some] at h ⊢
  obtain ⟨d1, d2⟩ := d
  simp only [dneg] at *
  omega

/-- Iterated `shift`. -/
def shiftK (d : Int × Int) : Nat → Square → Option Square
  | 0, s => some s
  | k + 1, s =>
    match shift s d with
    | none => none
    | some t => shiftK d k t

theorem shiftK_add (d : Int × Int) (a b : Nat) (s : Square) :
    shiftK d (a + b) s = (shiftK d a s).bind (shiftK d b) := by
  induction a generalizing s with
  | zero => simp [shiftK]
  | succ a ih =>
    have hrw : a + 1 + b = (a + b) + 1 := by omega
    rw [hrw]
    show (match shift s d with
      | none => none
      | some t => shiftK d (a + b) t) =
      ((match shift s d with
        | none => none
        | some t => shiftK d a t) : Option Square).bind (shiftK d b)
    cases hsh : shift s d with
    | none => rfl
    | some t => exact ih t

/-- Reversing an iterated shift. -/
theorem shiftK_inv {d : Int × Int} : ∀ {k : Nat} {s u : Square},
    shiftK d k s = some u → shiftK (dneg d) k u = some s := by
  intro k
  induction k with
  | zero =>
    intro s u h
    simp only [shiftK, Option.some.injEq] at h
    subst h
    rfl
  | succ k ih =>
    intro s u h
    unfold shiftK at h
    cases hsh : shift s d with
    | none => rw [hsh] at h; cases h
    | some t =>
      rw [hsh] at h
      have h1 := ih h
      have h2 : shift t (dneg d) = some s := shift_inv hsh
      have hrw : k + 1 = k + 1 := rfl
      rw [shiftK_add (dneg d) k 1]
      rw [h1]
      show shiftK (dneg d) 1 t = some s
      unfold shiftK
      rw [h2]
      rfl

/-- `rayMem` as an explicit path: `u` lies `k+1` steps from `s` along `d`
with every strictly intermediate square unoccupied. -/
theorem rayMem_iff_path (occ : Bitboard) (d : Int × Int) :
    ∀ (fuel : Nat) (s u : Square), rayMem occ d fuel s u = true ↔
      ∃ k, k < fuel ∧ shiftK d (k + 1) s = some u ∧
        ∀ j, j < k → ∀ t, shiftK d (j + 1) s = some t → occ t = false := by
  intro fuel
  induction fuel with
  | zero =>
    intro s u
    simp [rayMem]
  | succ fuel ih =>
    intro s u
    show (match shift s d with
      | none => false
      | some t => decide (t = u) || (!occ t && rayMem occ d fuel t u)) = true ↔ _
    cases hsh : shift s d with
    | none =>
      simp only [Bool.false_eq_true, false_iff]
      rintro ⟨k, hk, hpath, hblock⟩
      unfold shiftK at hpath
      rw [hsh] at hpath
      cases hpath
    | some t =>
      have hone : shiftK d 1 s = some t := by
        unfold shiftK
        rw [hsh]
        rfl
      simp only [Bool.or_eq_true, Bool.and_eq_true, Bool.not_eq_true',
        decide_eq_true_eq]
      constructor
      · rintro (rfl | ⟨hocc, hray⟩)
        · exact ⟨0, by omega, hone, fun j hj => by omega⟩
        · obtain ⟨k, hk, hpath, hblock⟩ := (ih t u).mp hray
          refine ⟨k + 1, by omega, ?_, ?_⟩
          · show shiftK d (k + 1 + 1) s = some u
            have : k + 1 + 1 = 1 + (k + 1) := by omega
            rw [this, shiftK_add, hone]
            exact hpath
          · intro j hj t' hpath'
            cases j with
            | zero =>
              rw [hone] at hpath'
              cases hpath'
              exact hocc
            | succ j =>
              have : j + 1 + 1 = 1 + (j + 1) := by omega
              rw [this, shiftK_add, hone] at hpath'
              exact hblock j (by omega) t' hpath'
      · rintro ⟨k, hk, hpath, hblock⟩
        cases k with
        | zero =>
          left
          rw [hone] at hpath
          exact Option.some.inj hpath
        | succ k =>
          right
          have hocc : occ t = false := hblock 0 (by omega) t hone
          refine ⟨hocc, (ih t u).mpr ⟨k, by omega, ?_, ?_⟩⟩
          · have : k + 1 + 1 = 1 + (k + 1) := by omega
            rw [this, shiftK_add, hone] at hpath
            exact hpath
          · intro j hj t' hpath'
            have : j + 1 + 1 = 1 + (j + 1) := by omega
            apply hblock (j + 1) (by omega) t'
            rw [this, shiftK_add, hone]
            exact hpath'

/-- One direction of ray reciprocity: the reversed ray with the negated
direction sees the origin. -/
theorem rayMem_recip_imp (occ : Bitboard) (d : Int × Int) (s u : Square)
    (h : rayMem occ d 8 s u = true) : rayMem occ (dneg d) 8 u s = true := by
  rw [rayMem_iff_path] at h ⊢
  obtain ⟨k, hk, hpath, hblock⟩ := h
  refine ⟨k, hk, shiftK_inv hpath, ?_⟩
  intro j hj t hpath'
  have hsplit : k + 1 = (k - j) + (j + 1) := by omega
  rw [hsplit, shiftK_add] at hpath
  cases hw : shiftK d (k - j) s with
  | none => rw [hw] at hpath; cases hpath
  | some w =>
    rw [hw] at hpath
    have hback : shiftK (dneg d) (j + 1) u = some w := shiftK_inv hpath
    rw [hback] at hpath'
    obtain rfl : w = t := Option.some.inj hpath'
    have hkj : k - j = (k - j - 1) + 1 := by omega
    rw [hkj] at hw
    exact hblock (k - j - 1) (by omega) w hw

/-- Ray reciprocity. -/
theorem rayMem_recip (occ : Bitboard) (d : Int × Int) (s u : Square) :
    rayMem occ d 8 s u = rayMem occ (dneg d) 8 u s := by
  cases hx : rayMem occ (dneg d) 8 u s with
  | true => exact (dneg_dneg d) ▸ rayMem_recip_imp occ (dneg d) u s hx
  | false =>
    cases hy : rayMem occ d 8 s u with
    | false => rfl
    | true => rw [rayMem_recip_imp occ d s u hy] at hx; cases hx

/-- Generic reciprocity for step-offset membership when the offset lists
are mutually closed under negation. -/
theorem anyShift_recip (L L' : List (Int × Int))
    (hLL' : ∀ d ∈ L, dneg d ∈ L') (hL'L : ∀ d ∈ L', dneg d ∈ L) (s u : Square) :
    (L.any fun d => decide (shift s d = some u)) =
      (L'.any fun d => decide (shift u d = some s)) := by
  have hiff : (L.any fun d => decide (shift s d = some u)) = true ↔
      (L'.any fun d => decide (shift u d = some s)) = true := by
    simp only [List.any_eq_true, decide_eq_true_eq]
    constructor
    · rintro ⟨d, hd, hsh⟩
      exact ⟨dneg d, hLL' d hd, shift_inv hsh⟩
    · rintro ⟨d, hd, hsh⟩
      refine ⟨dneg d, hL'L d hd, ?_⟩
      exact shift_inv hsh
  cases hx : L'.any fun d => decide (shift u d = some s) with
  | true => exact hiff.mpr hx
  | false =>
    cases hy : L.any fun d => decide (shift s d = some u) with
    | false => rfl
    | true => rw [hiff.mp hy] at hx; cases hx

/-- Generic reciprocity for ray membership when the direction lists are
mutually closed under negation. -/
theorem anyRay_recip (L L' : List (Int × Int))
    (hLL' : ∀ d ∈ L, dneg d ∈ L') (hL'L : ∀ d ∈ L', dneg d ∈ L) (occ : Bitboard)
    (s u : Square) :
    (L.any fun d => rayMem occ d 8 s u) = (L'.any fun d => rayMem occ d 8 u s) := by
  have hiff : (L.any fun d => rayMem occ d 8 s u) = true ↔
      (L'.any fun d => rayMem occ d 8 u s) = true := by
    simp only [List.any_eq_true]
    constructor
    · rintro ⟨d, hd, hray⟩
      exact ⟨dneg d, hLL' d hd, (rayMem_recip occ d s u) ▸ hray⟩
    · rintro ⟨d, hd, hray⟩
      refine ⟨dneg d, hL'L d hd, ?_⟩
      rwa [rayMem_recip occ d u s] at hray
  cases hx : L'.any fun d => rayMem occ d 8 u s with
  | true => exact hiff.mpr hx
  | false =>
    cases hy : L.any fun d => rayMem occ d 8 s u with
    | false => rfl
    | true => rw [hiff.mp hy] at hx; cases hx

/-- The color-scaled step lists are mutually negation-closed (checked by
enumeration). -/
theorem stepClosed : ∀ (pt : PieceType) (c : Color),
    ∀ d ∈ (stepBase pt).map (scaleD (dirSign c.not)),
      dneg d ∈ (stepBase pt).map (scaleD (dirSign c)) := by decide

theorem stepClosed' : ∀ (pt : PieceType) (c : Color),
    ∀ d ∈ (stepBase pt).map (scaleD (dirSign c)),
      dneg d ∈ (stepBase pt).map (scaleD (dirSign c.not)) := by decide

theorem slideClosed : ∀ (pt : PieceType) (c : Color),
    ∀ d ∈ (slideBase pt).map (scaleD (dirSign c.not)),
      dneg d ∈ (slideBase pt).map (scaleD (dirSign c)) := by decide

theorem slideClosed' : ∀ (pt : PieceType) (c : Color),
    ∀ d ∈ (slideBase pt).map (scaleD (dirSign c)),
      dneg d ∈ (slideBase pt).map (scaleD (dirSign c.not)) := by decide

/-- Step-attack reciprocity: the opposing color attacks `u` from `s` iff
color `c` attacks `s` from `u`. -/
theorem stepHit_recip (pt : PieceType) (c : Color) (s u : Square) :
    stepHit pt c.not s u = stepHit pt c u s :=
  anyShift_recip _ _ (stepClosed pt c) (stepClosed' pt c) s u

/-- Slide-attack reciprocity under a fixed occupancy. -/
theorem slideHit_recip (pt : PieceType) (c : Color) (occ : Bitboard) (s u : Square) :
    slideHit pt c.not occ s u = slideHit pt c occ u s :=
  anyRay_recip _ _ (slideClosed pt c) (slideClosed' pt c) occ s u

/-- A piece whose step list contains another's attacks everything it does. -/
theorem stepHit_sub (pt pt' : PieceType) (h : ∀ d ∈ stepBase pt, d ∈ stepBase pt')
    (c : Color) (s u : Square) (hx : stepHit pt c s u = true) : stepHit pt' c s u = true := by
  unfold stepHit at hx ⊢
  simp only [List.any_eq_true, List.mem_map] at hx ⊢
  obtain ⟨d, ⟨d0, hd0, rfl⟩, hsh⟩ := hx
  exact ⟨scaleD (dirSign c) d0, ⟨d0, h d0 hd0, rfl⟩, hsh⟩

/-- An adjacent square along a ray direction is ray-attacked regardless of
occupancy. -/
theorem rayMem_of_shift (occ : Bitboard) {d : Int × Int} {s u : Square}
    (h : shift s d = some u) : rayMem occ d 8 s u = true := by
  show (match shift s d with
    | none => false
    | some t => decide (t = u) || (!occ t && rayMem occ d 7 t u)) = true
  rw [h]
  simp

/-- A single slide direction suffices for a slide hit. -/
theorem slideHit_of_ray (pt : PieceType) (c : Color) (occ : Bitboard) (s u : Square)
    (d0 : Int × Int) (hd0 : d0 ∈ slideBase pt)
    (hray : rayMem occ (scaleD (dirSign c) d0) 8 s u = true) :
    slideHit pt c occ s u = true := by
  unfold slideHit
  simp only [List.any_eq_true, List.mem_map]
  exact ⟨scaleD (dirSign c) d0, ⟨d0, hd0, rfl⟩, hray⟩

/-- A silver step from `u` is also a dragon attack from `u`. -/
theorem ry_of_gi (c : Color) (occ : Bitboard) (u sq : Square)
    (h : stepHit .GI c u sq = true) : attackTable .RY u c occ sq = true := by
  unfold stepHit at h
  simp only [List.any_eq_true, List.mem_map] at h
  obtain ⟨d, ⟨d0, hd0, rfl⟩, hsh⟩ := h
  show (stepHit .RY c u sq || slideHit .RY c occ u sq) = true
  simp only [stepBase, List.mem_cons, List.not_mem_nil, or_false] at hd0
  rcases hd0 with rfl | rfl | rfl | rfl | rfl
  · have := slideHit_of_ray .RY c occ u sq (0, 1) (by decide)
      (rayMem_of_shift occ (of_decide_eq_true hsh))
    rw [this, Bool.or_true]
  all_goals
    have hstep : stepHit .RY c u sq = true := by
      unfold stepHit
      simp only [List.any_eq_true, List.mem_map]
      exact ⟨_, ⟨_, by decide, rfl⟩, hsh⟩
    rw [hstep, Bool.true_or]

/-- A gold step from `u` is also a horse attack from `u`. -/
theorem um_of_ki (c : Color) (occ : Bitboard) (u sq : Square)
    (h : stepHit .KI c u sq = true) : attackTable .UM u c occ sq = true := by
  unfold stepHit at h
  simp only [List.any_eq_true, List.mem_map] at h
  obtain ⟨d, ⟨d0, hd0, rfl⟩, hsh⟩ := h
  show (stepHit .UM c u sq || slideHit .UM c occ u sq) = true
  simp only [stepBase, List.mem_cons, List.not_mem_nil, or_false] at hd0
  have hstep : ∀ d1 ∈ stepBase PieceType.UM,
      d1 = d0 → stepHit .UM c u sq = true := by
    intro d1 hd1 hEq
    unfold stepHit
    simp only [List.any_eq_true, List.mem_map]
    exact ⟨_, ⟨d1, hd1, rfl⟩, hEq ▸ hsh⟩
  have hslide : ∀ d1 ∈ slideBase PieceType.UM,
      d1 = d0 → slideHit .UM c occ u sq = true := by
    intro d1 hd1 hEq
    subst hEq
    exact slideHit_of_ray .UM c occ u sq d1 hd1
      (rayMem_of_shift occ (of_decide_eq_true hsh))
  rcases hd0 with rfl | rfl | rfl | rfl | rfl | rfl
  · rw [hstep (0, 1) (by decide) rfl, Bool.true_or]
  · rw [hslide (1, 1) (by decide) rfl, Bool.or_true]
  · rw [hslide (-1, 1) (by decide) rfl, Bool.or_true]
  · rw [hstep (1, 0) (by decide) rfl, Bool.true_or]
  · rw [hstep (-1, 0) (by decide) rfl, Bool.true_or]
  · rw [hstep (0, -1) (by decide) rfl, Bool.true_or]

/-- A king step from `u` is a silver step or a gold step. -/
theorem ou_step_split (c : Color) (u sq : Square)
    (h : stepHit .OU c u sq = true) :
    stepHit .GI c u sq = true ∨ stepHit .KI c u sq = true := by
  unfold stepHit at h
  simp only [List.any_eq_true, List.mem_map] at h
  obtain ⟨d, ⟨d0, hd0, rfl⟩, hsh⟩ := h
  have hmk : ∀ (pt : PieceType), d0 ∈ stepBase pt → stepHit pt c u sq = true := by
    intro pt hd1
    unfold stepHit
    simp only [List.any_eq_true, List.mem_map]
    exact ⟨_, ⟨d0, hd1, rfl⟩, hsh⟩
  simp only [stepBase, List.mem_cons, List.not_mem_nil, or_false] at hd0
  rcases hd0 with rfl | rfl | rfl | rfl | rfl | rfl | rfl | rfl
  · exact Or.inr (hmk .KI (by decide))
  · exact Or.inr (hmk .KI (by decide))
  · exact Or.inr (hmk .KI (by decide))
  · exact Or.inr (hmk .KI (by decide))
  · exact Or.inr (hmk .KI (by decide))
  · exact Or.inr (hmk .KI (by decide))
  · exact Or.inl (hmk .GI (by decide))
  · exact Or.inl (hmk .GI (by decide))

/-- The value of the `attackers_to` family formula at candidate square `u`,
given that the piece standing on `u` has type `pt0` (proof-layer shorthand
mirroring the source's seven family terms). -/
def famHit (c : Color) (occ : Bitboard) (sq u : Square) (pt0 : PieceType) : Bool :=
  ((attackTable .FU sq c.not occ u && decide (pt0 = .FU) ||
    attackTable .KY sq c.not occ u && decide (pt0 = .KY)) ||
   (attackTable .KE sq c.not occ u && decide (pt0 = .KE) ||
    attackTable .GI sq c.not occ u &&
      ((decide (pt0 = .GI) || decide (pt0 = .RY)) || decide (pt0 = .OU)))) ||
  ((attackTable .KA sq c.not occ u && (decide (pt0 = .KA) || decide (pt0 = .UM)) ||
    attackTable .HI sq c.not occ u && (decide (pt0 = .HI) || decide (pt0 = .RY))) ||
   attackTable .KI sq c.not occ u &&
     ((((((decide (pt0 = .KI) || decide (pt0 = .TO)) || decide (pt0 = .NY)) ||
       decide (pt0 = .NK)) || decide (pt0 = .NG)) || decide (pt0 = .UM)) ||
       decide (pt0 = .OU)))

/-- The family formula, queried at `sq` for the opposing color, holds at
`u` exactly when the piece of type `pt0` and color `c` on `u` attacks `sq`
under occupancy `occ`. -/
theorem famHit_iff (c : Color) (occ : Bitboard) (sq u : Square) (pt0 : PieceType) :
    famHit c occ sq u pt0 = true ↔ attackTable pt0 u c occ sq = true := by
  cases pt0 with
  | FU =>
    simp only [famHit, decide_eq_true_eq, reduceCtorEq]
    simp only [decide_True, decide_False, Bool.and_true, Bool.and_false, Bool.or_false,
      Bool.false_or]
    simp only [attackTable, slideHit, slideBase, List.map_nil, List.any_nil, Bool.or_false]
    rw [stepHit_recip]
  | KY =>
    simp only [famHit, decide_eq_true_eq, reduceCtorEq]
    simp only [decide_True, decide_False, Bool.and_true, Bool.and_false, Bool.or_false,
      Bool.false_or]
    simp only [attackTable, stepHit, stepBase, List.map_nil, List.any_nil, Bool.false_or]
    rw [slideHit_recip]
  | KE =>
    simp only [famHit, decide_eq_true_eq, reduceCtorEq]
    simp only [decide_True, decide_False, Bool.and_true, Bool.and_false, Bool.or_false,
      Bool.false_or]
    simp only [attackTable, slideHit, slideBase, List.map_nil, List.any_nil, Bool.or_false]
    rw [stepHit_recip]
  | GI =>
    simp only [famHit, decide_eq_true_eq, reduceCtorEq]
    simp only [decide_True, decide_False, Bool.and_true, Bool.and_false, Bool.or_false,
      Bool.false_or, Bool.true_or, Bool.or_true]
    simp only [attackTable, slideHit, slideBase, List.map_nil, List.any_nil, Bool.or_false]
    rw [stepHit_recip]
  | KI =>
    simp only [famHit, decide_eq_true_eq, reduceCtorEq]
    simp only [decide_True, decide_False, Bool.and_true, Bool.and_false, Bool.or_false,
      Bool.false_or, Bool.true_or, Bool.or_true]
    simp only [attackTable, slideHit, slideBase, List.map_nil, List.any_nil, Bool.or_false]
    rw [stepHit_recip]
  | KA =>
    simp only [famHit, decide_eq_true_eq, reduceCtorEq]
    simp only [decide_True, decide_False, Bool.and_true, Bool.and_false, Bool.or_false,
      Bool.false_or, Bool.true_or, Bool.or_true]
    simp only [attackTable, stepHit, stepBase, List.map_nil, List.any_nil, Bool.false_or]
    rw [slideHit_recip]
  | HI =>
    simp only [famHit, decide_eq_true_eq, reduceCtorEq]
    simp only [decide_True, decide_False, Bool.and_true, Bool.and_false, Bool.or_false,
      Bool.false_or, Bool.true_or, Bool.or_true]
    simp only [attackTable, stepHit, stepBase, List.map_nil, List.any_nil, Bool.false_or]
    rw [slideHit_recip]
  | TO =>
    simp only [famHit, decide_eq_true_eq, reduceCtorEq]
    simp only [decide_True, decide_False, Bool.and_true, Bool.and_false, Bool.or_false,
      Bool.false_or, Bool.true_or, Bool.or_true]
    simp only [attackTable, slideHit, slideBase, List.map_nil, List.any_nil, Bool.or_false]
    rw [stepHit_recip]
    exact Iff.rfl
  | NY =>
    simp only [famHit, decide_eq_true_eq, reduceCtorEq]
    simp only [decide_True, decide_False, Bool.and_true, Bool.and_false, Bool.or_false,
      Bool.false_or, Bool.true_or, Bool.or_true]
    simp only [attackTable, slideHit, slideBase, List.map_nil, List.any_nil, Bool.or_false]
    rw [stepHit_recip]
    exact Iff.rfl
  | NK =>
    simp only [famHit, decide_eq_true_eq, reduceCtorEq]
    simp only [decide_True, decide_False, Bool.and_true, Bool.and_false, Bool.or_false,
      Bool.false_or, Bool.true_or, Bool.or_true]
    simp only [attackTable, slideHit, slideBase, List.map_nil, List.any_nil, Bool.or_false]
    rw [stepHit_recip]
    exact Iff.rfl
  | NG =>
    simp only [famHit, decide_eq_true_eq, reduceCtorEq]
    simp only [decide_True, decide_False, Bool.and_true, Bool.and_false, Bool.or_false,
      Bool.false_or, Bool.true_or, Bool.or_true]
    simp only [attackTable, slideHit, slideBase, List.map_nil, List.any_nil, Bool.or_false]
    rw [stepHit_recip]
    exact Iff.rfl
  | OU =>
    simp only [famHit, decide_eq_true_eq, reduceCtorEq]
    simp only [decide_True, decide_False, Bool.and_true, Bool.and_false, Bool.or_false,
      Bool.false_or, Bool.true_or, Bool.or_true]
    simp only [attackTable, slideHit, slideBase, List.map_nil, List.any_nil, Bool.or_false,
      Bool.or_eq_true]
    rw [stepHit_recip, stepHit_recip]
    constructor
    · rintro (h | h)
      · exact stepHit_sub .GI .OU (by decide) c u sq h
      · exact stepHit_sub .KI .OU (by decide) c u sq h
    · exact ou_step_split c u sq
  | UM =>
    simp only [famHit, decide_eq_true_eq, reduceCtorEq]
    simp only [decide_True, decide_False, Bool.and_true, Bool.and_false, Bool.or_false,
      Bool.false_or, Bool.true_or, Bool.or_true]
    constructor
    · intro h
      simp only [Bool.or_eq_true] at h
      rcases h with h | h
      · show (stepHit .UM c u sq || slideHit .UM c occ u sq) = true
        have hka : slideHit .KA c occ u sq = true := by
          have : attackTable .KA sq c.not occ u = true := h
          simp only [attackTable, stepHit, stepBase, List.map_nil, List.any_nil,
            Bool.false_or] at this
          rwa [slideHit_recip] at this
        rw [show slideHit .UM c occ u sq = slideHit .KA c occ u sq from rfl, hka,
          Bool.or_true]
      · have hki : stepHit .KI c u sq = true := by
          have : attackTable .KI sq c.not occ u = true := h
          simp only [attackTable, slideHit, slideBase, List.map_nil, List.any_nil,
            Bool.or_false] at this
          rwa [stepHit_recip] at this
        exact um_of_ki c occ u sq hki
    · intro h
      simp only [Bool.or_eq_true]
      have h' : (stepHit .UM c u sq || slideHit .UM c occ u sq) = true := h
      simp only [Bool.or_eq_true] at h'
      rcases h' with h' | h'
      · right
        have hki : stepHit .KI c u sq = true := stepHit_sub .UM .KI (by decide) c u sq h'
        show attackTable .KI sq c.not occ u = true
        simp only [attackTable, slideHit, slideBase, List.map_nil, List.any_nil,
          Bool.or_false]
        rwa [stepHit_recip]
      · left
        show attackTable .KA sq c.not occ u = true
        simp only [attackTable, stepHit, stepBase, List.map_nil, List.any_nil,
          Bool.false_or]
        rw [slideHit_recip]
        exact h'
  | RY =>
    simp only [famHit, decide_eq_true_eq, reduceCtorEq]
    simp only [decide_True, decide_False, Bool.and_true, Bool.and_false, Bool.or_false,
      Bool.false_or, Bool.true_or, Bool.or_true]
    constructor
    · intro h
      simp only [Bool.or_eq_true] at h
      rcases h with h | h
      · have hgi : stepHit .GI c u sq = true := by
          have : attackTable .GI sq c.not occ u = true := h
          simp only [attackTable, slideHit, slideBase, List.map_nil, List.any_nil,
            Bool.or_false] at this
          rwa [stepHit_recip] at this
        exact ry_of_gi c occ u sq hgi
      · show (stepHit .RY c u sq || slideHit .RY c occ u sq) = true
        have hhi : slideHit .HI c occ u sq = true := by
          have : attackTable .HI sq c.not occ u = true := h
          simp only [attackTable, stepHit, stepBase, List.map_nil, List.any_nil,
            Bool.false_or] at this
          rwa [slideHit_recip] at this
        rw [show slideHit .RY c occ u sq = slideHit .HI c occ u sq from rfl, hhi,
          Bool.or_true]
    · intro h
      simp only [Bool.or_eq_true]
      have h' : (stepHit .RY c u sq || slideHit .RY c occ u sq) = true := h
      simp only [Bool.or_eq_true] at h'
      rcases h' with h' | h'
      · left
        have hgi : stepHit .GI c u sq = true := stepHit_sub .RY .GI (by decide) c u sq h'
        show attackTable .GI sq c.not occ u = true
        simp only [attackTable, slideHit, slideBase, List.map_nil, List.any_nil,
          Bool.or_false]
        rwa [stepHit_recip]
      · right
        show attackTable .HI sq c.not occ u = true
        simp only [attackTable, stepHit, stepBase, List.map_nil, List.any_nil,
          Bool.false_or]
        rw [slideHit_recip]
        exact h'

/-- **C6.** On a bitboard-consistent Position (the invariant of C2),
`attackers_to(c, sq)` holds at a square `u` exactly when `u` carries a
piece of color `c` whose own attack pattern from `u`, under the actual
current occupancy (sliders blocked realistically), contains `sq`. -/
theorem c6_attackers_to_semantics (pos : Position) (hcons : Consistent pos)
    (c : Color) (sq u : Square) :
    pos.attackersTo c sq u = true ↔
      pos.piecesC c u = true ∧ ∃ pt, pos.pieceOn u = .piece c pt ∧
        attackTable pt u c pos.occupied sq = true := by
  obtain ⟨hcb, hpb, hob⟩ := hcons u
  cases hb : pos.board u with
  | EMP =>
    have hC : pos.piecesC c u = false := by
      show pos.c_bb c u = false
      rw [hcb c, hb]
      rfl
    constructor
    · intro h
      unfold Position.attackersTo at h
      dsimp only [bbAnd] at h
      rw [hC] at h
      simp at h
    · rintro ⟨hpc, -⟩
      rw [hC] at hpc
      cases hpc
  | piece c0 pt0 =>
    by_cases hcc : c0 = c
    · subst hcc
      have hCt : pos.piecesC c0 u = true := by
        show pos.c_bb c0 u = true
        rw [hcb c0, hb]
        simp [Piece.color]
      have hP : ∀ X, pos.pt_bb X u = decide (pt0 = X) := by
        intro X
        rw [hpb X, hb]
        simp [Piece.pieceType]
      have hatk : pos.attackersTo c0 sq u =
          (famHit c0 pos.occ_bb sq u pt0 && pos.piecesC c0 u) := by
        unfold Position.attackersTo famHit
        dsimp only [bbAnd, bbOr, bbZero, Position.piecesPs, Position.piecesP,
          Position.piecesC, Position.occupied, List.foldl]
        simp only [hP, Bool.false_or]
      rw [hatk, hCt, Bool.and_true, famHit_iff]
      constructor
      · intro h
        exact ⟨rfl, pt0, hb, h⟩
      · rintro ⟨-, pt, hpt, hat⟩
        have hpe : Piece.piece c0 pt0 = Piece.piece c0 pt := by
          rw [← hb]
          exact hpt
        injection hpe with h1 h2
        rw [h2]
        exact hat
    · have hCf : pos.piecesC c u = false := by
        show pos.c_bb c u = false
        rw [hcb c, hb]
        simp [Piece.color, hcc]
      constructor
      · intro h
        unfold Position.attackersTo at h
        dsimp only [bbAnd] at h
        rw [hCf] at h
        simp at h
      · rintro ⟨hpc, -⟩
        rw [hCf] at hpc
        cases hpc

/-- Witness for C6 at the starting position: the black pawn on (2,6) and
the square (2,5) it attacks. -/
theorem c6_attackers_to_semantics_witness :
    Consistent Position.default ∧
    (Position.default.attackersTo .Black (mkSq 2 5) (mkSq 2 6) = true ↔
      Position.default.piecesC .Black (mkSq 2 6) = true ∧ ∃ pt,
        Position.default.pieceOn (mkSq 2 6) = .piece .Black pt ∧
        attackTable pt (mkSq 2 6) .Black Position.default.occupied (mkSq 2 5) = true) :=
  ⟨by decide, c6_attackers_to_semantics Position.default (by decide) .Black
    (mkSq 2 5) (mkSq 2 6)⟩

/-! ### C5: check symmetry along legally played games -/

theorem bbIsEmpty_and_fromSq (T : Bitboard) (sq : Square) :
    bbIsEmpty (bbAnd T (bbFromSq sq)) = !T sq := by
  cases hT : T sq with
  | false =>
    show squareList.all (fun s => !(T s && decide (s = sq))) = true
    apply List.all_eq_true.mpr
    intro s hs
    by_cases hse : s = sq
    · subst hse
      rw [hT]
      rfl
    · simp [hse]
  | true =>
    show squareList.all (fun s => !(T s && decide (s = sq))) = false
    apply List.all_eq_false.mpr
    refine ⟨sq, mem_squareList sq, ?_⟩
    simp [hT]

/-- Adding blockers only removes ray attacks. -/
theorem rayMem_antitone (occ1 occ2 : Bitboard) (hmono : ∀ t, occ1 t = true → occ2 t = true)
    (d : Int × Int) (s u : Square) (h : rayMem occ2 d 8 s u = true) :
    rayMem occ1 d 8 s u = true := by
  rw [rayMem_iff_path] at h ⊢
  obtain ⟨k, hk, hpath, hblock⟩ := h
  refine ⟨k, hk, hpath, ?_⟩
  intro j hj t hp
  have := hblock j hj t hp
  cases hx : occ1 t with
  | false => rfl
  | true => rw [hmono t hx] at this; cases this

/-- Adding blockers only removes attacks. -/
theorem attackTable_antitone (occ1 occ2 : Bitboard)
    (hmono : ∀ t, occ1 t = true → occ2 t = true) (pt : PieceType) (c : Color) (s u : Square)
    (h : attackTable pt s c occ2 u = true) : attackTable pt s c occ1 u = true := by
  unfold attackTable at h ⊢
  simp only [Bool.or_eq_true] at h ⊢
  rcases h with h | h
  · exact Or.inl h
  · right
    unfold slideHit at h ⊢
    simp only [List.any_eq_true] at h ⊢
    obtain ⟨d, hd, hray⟩ := h
    exact ⟨d, hd, rayMem_antitone occ1 occ2 hmono d s u hray⟩

/-- Modelled from the spec: legal play never leaves the opposing king
capturable — at a legally reached position the side to move has no piece
attacking the opposing king (when that king is on the board). -/
def kingSafeB (pos : Position) : Bool :=
  match pos.king pos.color.not with
  | some sq => bbIsEmpty (pos.attackersTo pos.color sq)
  | none => true

/-- Modelled from the spec: a legal move as produced by the generator — it
satisfies the bookkeeping contract (`moveOkB`), succeeds, and does not
leave the mover's own king attacked afterwards. -/
def legalMoveB (pos : Position) (m : Move) : Bool :=
  moveOkB pos m &&
  (match pos.doMove m with
   | some pos' => kingSafeB pos'
   | none => false)

/-- Run a sequence of `do_move` calls. -/
def applyMoves (pos : Position) : List Move → Option Position
  | [] => some pos
  | m :: ms =>
    match pos.doMove m with
    | some pos' => applyMoves pos' ms
    | none => none

/-- Every move of the sequence is legal at the position it is played from. -/
def legalRun (pos : Position) : List Move → Bool
  | [] => true
  | m :: ms =>
    legalMoveB pos m &&
    (match pos.doMove m with
     | some pos' => legalRun pos' ms
     | none => false)

/-- The top snapshot's checkers bitboard is exactly the set of opposing
pieces attacking the side-to-move king. -/
def CheckersOk (pos : Position) : Prop :=
  ∀ sq, pos.king pos.color = some sq →
    pos.checkersQ = some (pos.attackersTo pos.color.not sq)

/-- The snapshot pushed after a normal move records exactly the attackers
of the new side-to-move king. -/
theorem pushState_checkersOk (core : Position) (mover : Color) (rest : List State) :
    CheckersOk { core with
                 color := mover.not
                 states := pushState core mover :: rest } := by
  intro sq hk
  have hk' : core.king mover.not = some sq := hk
  show some (pushState core mover).checkers = _
  unfold pushState
  dsimp only
  rw [hk']
  have hcnot : ({ core with
      color := mover.not
      states := pushState core mover :: rest } : Position).color.not = mover.not.not := rfl
  rw [hcnot, Color.not_not]
  rfl

theorem bbIsEmpty_true {b : Bitboard} (h : bbIsEmpty b = true) (s : Square) : b s = false := by
  have := List.all_eq_true.mp h s (mem_squareList s)
  simpa using this

/-- The snapshot pushed after a drop records exactly the attackers of the
new side-to-move king, provided the dropper could not already capture that
king (legal play). -/
theorem pushStateDrop_checkersOk (pos : Position) (m : Move) (ptd : PieceType)
    (hcons : Consistent pos)
    (hto : pos.board m.toSq = .EMP)
    (hnotOU : ptd ≠ .OU)
    (hsafe : kingSafeB pos = true) :
    CheckersOk { afterDropCore pos m ptd with
                 color := pos.color.not
                 states := pushStateDrop (afterDropCore pos m ptd) pos.color ptd m.toSq
                   :: pos.states } := by
  intro sq hk
  have hk' : (afterDropCore pos m ptd).king pos.color.not = some sq := hk
  have hconsCore : Consistent (afterDropCore pos m ptd) :=
    consistent_toggle pos hcons m.toSq pos.color ptd (.piece pos.color ptd)
      (Or.inl ⟨hto, rfl⟩)
  have hocc : pos.occ_bb m.toSq = false := by
    have h3 := (hcons m.toSq).2.2
    rw [hto] at h3
    simpa using h3
  have hoccMono : ∀ t, pos.occ_bb t = true → (afterDropCore pos m ptd).occ_bb t = true := by
    intro t ht
    by_cases hts : t = m.toSq
    · subst hts
      rw [hocc] at ht
      cases ht
    · show bbXorSq pos.occ_bb m.toSq t = true
      rw [bbXorSq_app_noteq pos.occ_bb m.toSq t hts]
      exact ht
  have hcbb : (afterDropCore pos m ptd).c_bb pos.color.not = pos.c_bb pos.color.not :=
    Function.update_noteq (Color.not_ne pos.color) _ _
  have hpbb : (afterDropCore pos m ptd).pt_bb .OU = pos.pt_bb .OU :=
    Function.update_noteq (fun h => hnotOU h.symm) _ _
  have hkingpos : pos.king pos.color.not = some sq := by
    have hx := hk'
    unfold Position.king Position.piecesCP Position.piecesC Position.piecesP at hx ⊢
    rw [hcbb, hpbb] at hx
    exact hx
  have hsafeAt : ∀ u, pos.attackersTo pos.color sq u = false := by
    intro u
    unfold kingSafeB at hsafe
    rw [hkingpos] at hsafe
    exact bbIsEmpty_true hsafe u
  show some (pushStateDrop (afterDropCore pos m ptd) pos.color ptd m.toSq).checkers = _
  unfold pushStateDrop
  dsimp only
  rw [hk']
  have hcnot : ({ afterDropCore pos m ptd with
      color := pos.color.not
      states := pushStateDrop (afterDropCore pos m ptd) pos.color ptd m.toSq
        :: pos.states } : Position).color.not = pos.color.not.not := rfl
  rw [hcnot, Color.not_not]
  refine congrArg some ?_
  show (if (!bbIsEmpty (bbAnd (attackTable ptd m.toSq pos.color
      (afterDropCore pos m ptd).occupied) (bbFromSq sq))) = true
    then bbFromSq m.toSq else bbZero) =
    (afterDropCore pos m ptd).attackersTo pos.color sq
  rw [bbIsEmpty_and_fromSq, Bool.not_not]
  funext u
  rw [apply_ite (fun b : Bitboard => b u)]
  by_cases hu : u = m.toSq
  · subst hu
    have hboardTo : (afterDropCore pos m ptd).board m.toSq = .piece pos.color ptd :=
      Function.update_same _ _ _
    cases hT : attackTable ptd m.toSq pos.color (afterDropCore pos m ptd).occupied sq with
    | true =>
      rw [if_pos rfl]
      have hattack : (afterDropCore pos m ptd).attackersTo pos.color sq m.toSq = true := by
        rw [c6_attackers_to_semantics (afterDropCore pos m ptd) hconsCore]
        refine ⟨?_, ptd, hboardTo, hT⟩
        show (afterDropCore pos m ptd).c_bb pos.color m.toSq = true
        rw [(hconsCore m.toSq).1 pos.color, hboardTo]
        simp [Piece.color]
      rw [hattack]
      simp [bbFromSq]
    | false =>
      rw [if_neg Bool.false_ne_true]
      cases hA : (afterDropCore pos m ptd).attackersTo pos.color sq m.toSq with
      | false => rfl
      | true =>
        exfalso
        rw [c6_attackers_to_semantics (afterDropCore pos m ptd) hconsCore] at hA
        obtain ⟨-, pt, hbu, hat⟩ := hA
        have hpe : Piece.piece pos.color ptd = Piece.piece pos.color pt :=
          hboardTo.symm.trans hbu
        injection hpe with h1 h2
        rw [← h2] at hat
        rw [hat] at hT
        cases hT
  · have hval : (if attackTable ptd m.toSq pos.color
        (afterDropCore pos m ptd).occupied sq = true
      then bbFromSq m.toSq u else bbZero u) = false := by
      split_ifs
      · simp [bbFromSq, hu]
      · rfl
    rw [hval]
    cases hA : (afterDropCore pos m ptd).attackersTo pos.color sq u with
    | false => rfl
    | true =>
      exfalso
      rw [c6_attackers_to_semantics (afterDropCore pos m ptd) hconsCore] at hA
      obtain ⟨-, pt, hbu, hat⟩ := hA
      have hbu' : pos.board u = .piece pos.color pt := by
        have hun : (afterDropCore pos m ptd).board u = pos.board u :=
          Function.update_noteq hu _ _
        rw [← hun]
        exact hbu
      have hatPos : attackTable pt u pos.color pos.occupied sq = true :=
        attackTable_antitone pos.occupied (afterDropCore pos m ptd).occupied
          hoccMono pt pos.color u sq hat
      have hupos : pos.attackersTo pos.color sq u = true := by
        rw [c6_attackers_to_semantics pos hcons]
        refine ⟨?_, pt, hbu', hatPos⟩
        show pos.c_bb pos.color u = true
        rw [(hcons u).1 pos.color, hbu']
        simp [Piece.color]
      rw [hsafeAt u] at hupos
      cases hupos

/-- Any successful legal `do_move` leaves the pushed checkers snapshot
correct for the new side to move. -/
theorem doMove_checkersOk {pos : Position} {m : Move} {q : Position}
    (hcons : Consistent pos) (hok : moveOkB pos m = true) (hsafe : kingSafeB pos = true)
    (h : pos.doMove m = some q) : CheckersOk q := by
  unfold moveOkB at hok
  cases hfm : m.fromOpt with
  | some f =>
    rw [hfm] at hok
    simp only [Bool.and_eq_true] at hok
    obtain ⟨⟨ha, hb⟩, hc⟩ := hok
    cases hbf : pos.board f with
    | EMP => rw [hbf] at ha; cases ha
    | piece c0 pt0 =>
      rw [hbf] at ha hc
      have hc0 : c0 = pos.color := by
        dsimp only at ha
        exact beq_iff_eq.mp ha
      subst hc0
      cases hcap : m.captured with
      | none =>
        rw [hcap] at hb
        have hto : pos.board m.toSq = Piece.EMP := by
          dsimp only at hb
          exact of_decide_eq_true hb
        have hne : m.toSq ≠ f := by
          intro he
          rw [he, hbf] at hto
          cases hto
        have heq := (doMove_normal_nocap_eq pos m f pt0 hfm hbf hcap hto hne).symm.trans h
        simp only [Option.some.injEq] at heq
        subst heq
        exact pushState_checkersOk (afterNormalNoCapCore pos m f pt0) pos.color pos.states
      | some pCap =>
        rw [hcap] at hb
        simp only [Bool.and_eq_true] at hb
        obtain ⟨hb1, hb2⟩ := hb
        cases hpc : pCap with
        | EMP => rw [hpc] at hb2; cases hb2
        | piece cc ptc =>
          rw [hpc] at hb1 hb2
          have hcc : cc = pos.color.not := by
            dsimp only at hb2
            exact beq_iff_eq.mp hb2
          subst hcc
          have hto : pos.board m.toSq = Piece.piece pos.color.not ptc := of_decide_eq_true hb1
          have hne : m.toSq ≠ f := by
            intro he
            rw [he, hbf] at hto
            have hx : pos.color = pos.color.not := by injection hto with h1 h2
            exact Color.ne_not pos.color hx
          rw [hpc] at hcap
          have heq := (doMove_normal_cap_eq pos m f pt0 ptc hfm hbf hcap hto hne).symm.trans h
          simp only [Option.some.injEq] at heq
          subst heq
          exact pushState_checkersOk (afterNormalCapCore pos m f pt0 ptc) pos.color pos.states
  | none =>
    rw [hfm] at hok
    simp only [Bool.and_eq_true] at hok
    obtain ⟨⟨⟨hp1, hp2⟩, hp3⟩, hp4⟩ := hok
    cases hmp : m.piece with
    | EMP => rw [hmp] at hp1; cases hp1
    | piece cd ptd =>
      rw [hmp] at hp1
      simp only [Bool.and_eq_true] at hp1
      obtain ⟨⟨⟨hd1, hd2⟩, hd3⟩, hd4⟩ := hp1
      have hcd : cd = pos.color := beq_iff_eq.mp hd1
      subst hcd
      have hto : pos.board m.toSq = Piece.EMP := of_decide_eq_true hp2
      have hnotOU : ptd ≠ .OU := by
        intro he
        rw [he] at hd3
        cases hd3
      have heq := (doMove_drop_eq pos m ptd hfm hmp).symm.trans h
      simp only [Option.some.injEq] at heq
      subst heq
      exact pushStateDrop_checkersOk pos m ptd hcons hto hnotOU hsafe

/-- The invariants of legal play: consistency, opposing-king safety, and
a correct checkers snapshot all persist along any legal game. -/
theorem legalRun_inv : ∀ (ms : List Move) (pos pos' : Position),
    legalRun pos ms = true → applyMoves pos ms = some pos' →
    Consistent pos → kingSafeB pos = true → CheckersOk pos →
    Consistent pos' ∧ kingSafeB pos' = true ∧ CheckersOk pos' := by
  intro ms
  induction ms with
  | nil =>
    intro pos pos' hrun happ hcons hsafe hck
    simp only [applyMoves, Option.some.injEq] at happ
    subst happ
    exact ⟨hcons, hsafe, hck⟩
  | cons mv ms ih =>
    intro pos pos' hrun happ hcons hsafe hck
    unfold legalRun at hrun
    unfold applyMoves at happ
    cases hstep : pos.doMove mv with
    | none => rw [hstep] at happ; cases happ
    | some posMid =>
      rw [hstep] at happ hrun
      dsimp only at happ hrun
      simp only [Bool.and_eq_true] at hrun
      obtain ⟨hlegal, hrest⟩ := hrun
      unfold legalMoveB at hlegal
      rw [hstep] at hlegal
      simp only [Bool.and_eq_true] at hlegal
      obtain ⟨hmok, hsafeMid⟩ := hlegal
      have hconsMid : Consistent posMid := Position.doMove_consistent hmok hstep hcons
      have hckMid : CheckersOk posMid := doMove_checkersOk hcons hmok hsafe hstep
      exact ih posMid pos' hrest happ hconsMid hsafeMid hckMid

/-- **C5 (amended).** Along any legal game — construction via
`Position::new` from a layout in which neither the side to move is already
in check nor the opposing king already capturable, followed by legal
`do_move`s — whenever the side to move has a king on the board, the three
statements are equivalent: `in_check()` is true, `checkers()` is
non-empty, and `attackers_to(opponent, king(side_to_move))` is non-empty.
(The unamended claim fails at construction time: `Position::new` always
records empty checkers, see the counterexample.) -/
theorem c5_check_symmetry (board0 : Square → Piece) (handNums : Color → PieceType → Nat)
    (stm : Color) (ms : List Move) (pos' : Position) (ksq : Square)
    (hsafe0 : kingSafeB (Position.new board0 handNums stm) = true)
    (hnochk0 : ∀ sq, (Position.new board0 handNums stm).king stm = some sq →
      (Position.new board0 handNums stm).attackersTo stm.not sq = bbZero)
    (hrun : legalRun (Position.new board0 handNums stm) ms = true)
    (happ : applyMoves (Position.new board0 handNums stm) ms = some pos')
    (hk : pos'.king pos'.sideToMove = some ksq) :
    ((pos'.inCheckQ = some true) ↔
      (∃ cb, pos'.checkersQ = some cb ∧ bbIsEmpty cb = false)) ∧
    ((pos'.inCheckQ = some true) ↔
      bbIsEmpty (pos'.attackersTo pos'.sideToMove.not ksq) = false) := by
  have hbaseC : CheckersOk (Position.new board0 handNums stm) := by
    intro sq hks
    have hz := hnochk0 sq hks
    show some bbZero = some ((Position.new board0 handNums stm).attackersTo stm.not sq)
    rw [hz]
  obtain ⟨-, -, hCk⟩ := legalRun_inv ms _ pos' hrun happ
    (consistent_new board0 handNums stm) hsafe0 hbaseC
  have hch : pos'.checkersQ = some (pos'.attackersTo pos'.sideToMove.not ksq) := hCk ksq hk
  have hic : pos'.inCheckQ =
      some (!bbIsEmpty (pos'.attackersTo pos'.sideToMove.not ksq)) := by
    unfold Position.inCheckQ
    rw [hch]
    rfl
  constructor
  · rw [hic]
    constructor
    · intro hx
      injection hx with hx'
      refine ⟨_, hch, ?_⟩
      cases hbe : bbIsEmpty (pos'.attackersTo pos'.sideToMove.not ksq) with
      | false => rfl
      | true => rw [hbe] at hx'; cases hx'
    · rintro ⟨cb, hcb, hemp⟩
      rw [hch] at hcb
      injection hcb with hcb'
      rw [← hcb'] at hemp
      rw [hemp]
      rfl
  · rw [hic]
    constructor
    · intro hx
      injection hx with hx'
      cases hbe : bbIsEmpty (pos'.attackersTo pos'.sideToMove.not ksq) with
      | false => rfl
      | true => rw [hbe] at hx'; cases hx'
    · intro hemp
      rw [hemp]
      rfl

/-- The counterexample layout for the unamended C5: the Black king on
(4,4) stands on the White rook's file with an empty corridor, Black to
move. -/
def c5board : Square → Piece := fun s =>
  if s = mkSq 4 4 then .piece .Black .OU
  else if s = mkSq 4 0 then .piece .White .HI
  else if s = mkSq 0 0 then .piece .White .OU
  else .EMP

/-- The constructed counterexample position. -/
def c5pos : Position := Position.new c5board (fun _ _ => 0) .Black

/-- The unamended C5 fails at construction: the side to move is attacked,
yet `checkers()` is empty and `in_check()` is false — the three-way
equivalence is violated by `Position::new`'s always-empty checkers. -/
theorem c5_check_symmetry_counterexample :
    c5pos.king c5pos.sideToMove = some (mkSq 4 4) ∧
    c5pos.inCheckQ = some false ∧
    c5pos.checkersQ = some bbZero ∧
    bbIsEmpty (c5pos.attackersTo c5pos.sideToMove.not (mkSq 4 4)) = false := by decide

/-- Witness moves for C5: the opening pawn push. -/
def c5ms : List Move :=
  [Move.newNormal (mkSq 2 6) (mkSq 2 5) false (.piece .Black .FU) none]

/-- The position after the witness game. -/
def c5res : Position := (applyMoves Position.default c5ms).getD Position.default

set_option maxRecDepth 4000 in
/-- Witness for C5 along a concrete legal game from the standard opening. -/
theorem c5_check_symmetry_witness :
    (kingSafeB Position.default = true ∧
     (∀ sq, Position.default.king .Black = some sq →
        Position.default.attackersTo Color.Black.not sq = bbZero) ∧
     legalRun Position.default c5ms = true ∧
     c5res.king c5res.sideToMove = some (mkSq 4 0)) ∧
    (((c5res.inCheckQ = some true) ↔
       (∃ cb, c5res.checkersQ = some cb ∧ bbIsEmpty cb = false)) ∧
     ((c5res.inCheckQ = some true) ↔
       bbIsEmpty (c5res.attackersTo c5res.sideToMove.not (mkSq 4 0)) = false)) :=
  ⟨⟨by decide, by decide, by decide, by decide⟩,
    c5_check_symmetry defaultBoard (fun _ _ => 0) .Black c5ms c5res (mkSq 4 0)
      (by decide) (by decide) (by decide) rfl (by decide)⟩
